import Mathlib

/-! Verification development for the merge-zip-suite tool, shallowly embedding
the Go implementation in `src/go/main.go`.  Go strings are modelled as
`List Char` (the inputs under study are ASCII, where Go's byte-wise order and
code-point order agree); Go's `uint64`/`int64` byte counters are modelled as
`Nat` (the programs's counters would need more than 2^57 actually streamed
bytes before wrap-around could matter, which no real job reaches); the
`float64` factors of the disk-space estimator are modelled exactly in `ℚ`
with the `uint64(...)` conversion as truncation. -/

abbrev Str := List Char

/-- The marker that `mapTargetName` inserts on a path collision
(`"%s__dup%d%s"`, main.go:128). -/
def dupMark : Str := ['_', '_', 'd', 'u', 'p']

/-- Little-endian decimal digit characters of `n`, with fuel so that the
recursion is structural (kernel-computable). -/
def decRevAux : Nat → Nat → Str
  | 0, _ => []
  | _ + 1, 0 => []
  | f + 1, n + 1 => Nat.digitChar ((n + 1) % 10) :: decRevAux f ((n + 1) / 10)

/-- Decimal numeral of `n` as characters: the `%d` verb of `fmt.Sprintf`
(main.go:128). -/
def natChars (n : Nat) : Str :=
  if n = 0 then ['0'] else (decRevAux n n).reverse

/-- Decimal value of a character list; inverse of `natChars`, used only to
prove `natChars` injective. -/
def charsVal (l : Str) : Nat :=
  l.foldl (fun a c => 10 * a + (c.toNat - 48)) 0

/-- Split `base` at its last `'.'` (cf. `strings.LastIndex(base, ".")`,
main.go:127): result is `(base[:dot], base[dot:])`, or `(base, [])` when
`base` has no dot.  Computed from the reversed string: everything strictly
after the last dot is `takeWhile (≠ '.')` of the reverse. -/
def splitExt (b : Str) : Str × Str :=
  let p := b.reverse.takeWhile (fun c => c != '.')
  let q := b.reverse.dropWhile (fun c => c != '.')
  if q = [] then (b, []) else (q.tail.reverse, '.' :: p.reverse)

/-- Collision target `fmt.Sprintf("%s__dup%d%s", root, c, ext)` (main.go:128). -/
def insertDup (b : Str) (c : Nat) : Str :=
  (splitExt b).1 ++ dupMark ++ natChars c ++ (splitExt b).2

/-- The `dedup map[string]int` of `mergeZIP`, as an association list. -/
abbrev DedupMap := List (Str × Nat)

def lookupD (m : DedupMap) (k : Str) : Option Nat :=
  match m with
  | [] => none
  | (k', v) :: t => if k = k' then some v else lookupD t k

def setD (m : DedupMap) (k : Str) (v : Nat) : DedupMap :=
  match m with
  | [] => [(k, v)]
  | (k', v') :: t => if k = k' then (k, v) :: t else (k', v') :: setD t k v

/-- The collision-handling half of `mapTargetName` (main.go:124-132), acting
on an already-built candidate `base`: first occurrence is returned unchanged
and seeds the counter at 1; a later occurrence returns the `__dup<c>` variant
and advances the counter. -/
def dedupStep (base : Str) (m : DedupMap) : Str × DedupMap :=
  match lookupD m base with
  | some c => (insertDup base c, setD m base (c + 1))
  | none => (base, setD m base 1)

/-- `strings.TrimLeft(inner, "/\\")` (main.go:116). -/
def trimLeftSlashes (s : Str) : Str :=
  s.dropWhile (fun c => c == '/' || c == '\\')

/-- Helper for `extOf`: walks the reversed path, accumulating the final
segment until the last dot or a separator is found. -/
def extRevAux : Str → Str → Str
  | [], _ => []
  | c :: cs, acc =>
    if c = '/' then []
    else if c = '.' then c :: acc
    else extRevAux cs (c :: acc)

/-- `filepath.Ext(zipName)` (main.go:119) on a slash path: the suffix of the
final element starting at its last dot, or empty if that element has no dot. -/
def extOf (p : Str) : Str := extRevAux p.reverse []

/-- Whether `pat` occurs at the head of `s` (segment-at test). -/
def isSegAt : Str → Str → Bool
  | [], _ => true
  | _ :: _, [] => false
  | a :: p, b :: t => a == b && isSegAt p t

/-- `strings.TrimSuffix(zipName, ext)` (main.go:119). -/
def trimSuffixS (s x : Str) : Str :=
  if isSegAt x.reverse s.reverse then s.take (s.length - x.length) else s

/-- Whether `pat` occurs contiguously anywhere inside a string. -/
def containsSeg (pat : Str) : Str → Bool
  | [] => pat.isEmpty
  | c :: t => isSegAt pat (c :: t) || containsSeg pat t

/-- A string that nowhere contains the `__dup` marker. -/
def dupFree (s : Str) : Prop := containsSeg dupMark s = false

instance (s : Str) : Decidable (dupFree s) :=
  inferInstanceAs (Decidable (containsSeg dupMark s = false))

/-- Split a slash path into its `'/'`-separated components. -/
def splitSlashAux : Str → Str → List Str
  | [], acc => [acc.reverse]
  | c :: t, acc =>
    if c = '/' then acc.reverse :: splitSlashAux t []
    else splitSlashAux t (c :: acc)

def splitSlash (s : Str) : List Str := splitSlashAux s []

/-- One component step of Go `path.Clean`: drop empty and `"."` components,
let `".."` pop a previous real component (or be kept at the start of a
relative path, or be dropped at the root of a rooted one). -/
def cleanStep (rooted : Bool) (acc : List Str) (comp : Str) : List Str :=
  if comp = [] ∨ comp = ['.'] then acc
  else if comp = ['.', '.'] then
    match acc.getLast? with
    | some l => if l = ['.', '.'] then acc ++ [comp] else acc.dropLast
    | none => if rooted then acc else acc ++ [comp]
  else acc ++ [comp]

def joinSlash : List Str → Str
  | [] => []
  | [x] => x
  | x :: y :: t => x ++ '/' :: joinSlash (y :: t)

/-- Model of Go `path.Clean` for slash-separated paths, as called by
`filepath.Join` (main.go:120) on unix. -/
def clean (p : Str) : Str :=
  let rooted : Bool := match p with | '/' :: _ => true | _ => false
  let body := joinSlash ((splitSlash p).foldl (cleanStep rooted) [])
  let out := if rooted then '/' :: body else body
  if out = [] then ['.'] else out

/-- Model of `filepath.Join(a, b)` (main.go:120) on unix: join the non-empty
elements with `'/'` and clean; all elements empty yields the empty path. -/
def join2 (a b : Str) : Str :=
  if a = [] ∧ b = [] then []
  else if a = [] then clean b
  else if b = [] then clean a
  else clean (a ++ '/' :: b)

/-- Candidate-path construction of `mapTargetName` (main.go:115-123);
`filepath.ToSlash` is the identity on unix. -/
def buildBase (pfxByZip : Bool) (zipName inner : Str) : Str :=
  let i := trimLeftSlashes inner
  if pfxByZip then join2 (trimSuffixS zipName (extOf zipName)) i else i

/-- `mapTargetName` (main.go:115-134): build the candidate target path and
deduplicate it against the job's table. -/
def mapTargetName (pfxByZip : Bool) (zipName inner : Str) (m : DedupMap) :
    Str × DedupMap :=
  dedupStep (buildBase pfxByZip zipName inner) m

/-- Run the deduplicator over a sequence of candidate target paths, returning
the emitted target names in order. -/
def runDedup (m : DedupMap) : List Str → List Str
  | [] => []
  | b :: bs => (dedupStep b m).1 :: runDedup (dedupStep b m).2 bs

/-- The dedup table after a sequence of candidates has been processed. -/
def runMap (m : DedupMap) : List Str → DedupMap
  | [] => m
  | b :: bs => runMap (dedupStep b m).2 bs

/-- The sequence of target paths produced for a job's sequence of
`(archive name, inner path)` inputs (the successive `mapTargetName` calls of
the merge loop, main.go:323). -/
def dedupTargets (pfxByZip : Bool) : List (Str × Str) → DedupMap → List Str
  | [], _ => []
  | q :: qs, m =>
    (mapTargetName pfxByZip q.1 q.2 m).1 ::
      dedupTargets pfxByZip qs (mapTargetName pfxByZip q.1 q.2 m).2

/-- `shouldSkipPath` (main.go:108-113): empty names, `__MACOSX/` prefixes and
`.DS_Store` suffixes are excluded from copying. -/
def shouldSkipPath (p : Str) : Bool :=
  if p = [] then true
  else if isSegAt ['_', '_', 'M', 'A', 'C', 'O', 'S', 'X', '/'] p then true
  else if isSegAt ['.', 'D', 'S', '_', 'S', 't', 'o', 'r', 'e'].reverse p.reverse then true
  else false

/-- One entry of a source archive, carrying both its directory metadata and
the I/O behaviour the run exhibits on it: `chunks` are the byte counts the
successive `rc.Read` calls deliver (main.go:343), `readErr` says a non-EOF
read error follows them (warn-only, main.go:355), `headerErr`/`openErr` make
`zw.CreateHeader`/`f.Open` fail, and `writeErrAt i` makes the write of the
i-th chunk fail. -/
structure Entry where
  name : Str
  isDir : Bool
  usize : Nat
  csize : Nat
  chunks : List Nat
  readErr : Bool
  headerErr : Bool
  openErr : Bool
  writeErrAt : Option Nat
deriving DecidableEq

/-- A source archive: `entries = none` models `zip.OpenReader` failing. -/
structure SrcZip where
  name : Str
  entries : Option (List Entry)
deriving DecidableEq

/-- Job configuration; `measuredFree` is the `syscall.Statfs` result
(`none` = the call failed, or the platform is windows where it is skipped),
`closeErr` makes the output archive's finalization fail. -/
structure Cfg where
  store : Bool
  pfxByZip : Bool
  measuredFree : Option Nat
  closeErr : Bool
deriving DecidableEq

inductive MergeErr where
  | noArchives
  | noSpace (need avail : Nat)
  | writeErr
  | closeErr
deriving DecidableEq

/-- One entry written to the output archive (instrumented with its source
archive's name, for stating provenance properties). -/
structure OutEntry where
  src : Str
  target : Str
  written : Nat
deriving DecidableEq

/-- Observable outcome of a merge run: final result, output entries written,
whether the output file was created, and the progress lines rendered (as
`(zip pct, overall pct)` pairs). -/
structure RunOut where
  result : Option MergeErr
  outs : List OutEntry
  createdOutFile : Bool
  renders : List (Nat × Nat)
deriving DecidableEq

/-- `sumUncompressed` (main.go:99-106): total uncompressed size of the
non-directory entries.  Note: no skip-rule filtering happens here. -/
def sumUncompressed : List Entry → Nat
  | [] => 0
  | f :: fs => (if f.isDir then 0 else f.usize) + sumUncompressed fs

/-- Compressed-size accumulation of the disk pre-check (main.go:261-271);
again every non-directory entry counts. -/
def sumCompressed : List Entry → Nat
  | [] => 0
  | f :: fs => (if f.isDir then 0 else f.csize) + sumCompressed fs

def zipTotal (z : SrcZip) : Nat :=
  match z.entries with
  | none => 0
  | some es => sumUncompressed es

def zipCompressed (z : SrcZip) : Nat :=
  match z.entries with
  | none => 0
  | some es => sumCompressed es

def overallTotalOf (zips : List SrcZip) : Nat := (zips.map zipTotal).sum

def overallCompressedOf (zips : List SrcZip) : Nat :=
  (zips.map zipCompressed).sum

/-- Disk-space requirement (main.go:279-289).  The Go code computes in
`float64` and converts with `uint64(...)`; the factors 1.05, 1.25 and 1.10
are applied here as the exact rationals 21/20, 5/4 and 11/10 with truncating
division — a real-arithmetic idealization of `float64` (whose rounding the
claims' concrete inputs do not straddle). -/
def diskNeed (store : Bool) (totalU totalC : Nat) : Nat :=
  if store then totalU * 21 / 20
  else
    let c0 := totalC * 5 / 4
    let c1 := if c0 > totalU then totalU else c0
    c1 * 11 / 10

/-- Integer percentages of `printZipProgress` (main.go:137-140). -/
def pctOf (done total : Nat) : Nat :=
  if 0 < total then done * 100 / total else 100

/-- Render state of `printZipProgress`: the last-printed percentages,
`-1` meaning "never printed" (main.go:317). -/
structure RState where
  lz : Int
  la : Int
deriving DecidableEq

/-- `printZipProgress` (main.go:136-160): re-render only when one of the two
integer percentages changed; returns the new render state and the render
list with the new line appended (if any). -/
def printZipProgress (done total overallDone overallTotal : Nat) (r : RState)
    (renders : List (Nat × Nat)) : RState × List (Nat × Nat) :=
  let zp := pctOf done total
  let ap := pctOf overallDone overallTotal
  if (zp : Int) ≠ r.lz ∨ (ap : Int) ≠ r.la then
    (⟨(zp : Int), (ap : Int)⟩, renders ++ [(zp, ap)])
  else (r, renders)

/-- State threaded through one entry's copy loop. -/
structure CopySt where
  doneZip : Nat
  od : Nat
  r : RState
  rend : List (Nat × Nat)
deriving DecidableEq

/-- The per-entry copy loop (main.go:341-360): stream the delivered chunks,
bumping the per-zip and overall byte counters and re-rendering progress after
each non-empty chunk; a failing write aborts (`true` in the result). -/
def copyChunks (totalZip overallTotal : Nat) (wErr : Option Nat) :
    List Nat → Nat → CopySt → CopySt × Bool
  | [], _, c => (c, false)
  | n :: rest, i, c =>
    if 0 < n then
      if wErr = some i then (c, true)
      else
        let dz := c.doneZip + n
        let od := c.od + n
        let pr := printZipProgress dz totalZip od overallTotal c.r c.rend
        copyChunks totalZip overallTotal wErr rest (i + 1) ⟨dz, od, pr.1, pr.2⟩
    else copyChunks totalZip overallTotal wErr rest (i + 1) c

/-- State threaded through one archive: overall done-counter, dedup table,
renders, output entries, per-zip done-counter and render state. -/
structure ASt where
  overallDone : Nat
  dedup : DedupMap
  renders : List (Nat × Nat)
  outs : List OutEntry
  doneZip : Nat
  r : RState
deriving DecidableEq

/-- Per-entry processing of the merge loop (main.go:320-360): skip
directories and skip-rule paths; compute the target name (this consumes a
dedup counter even if the entry later fails); a header-create or open
failure warns and skips the entry; a write failure aborts the job. -/
def procEntry (pfx : Bool) (zname : Str) (totalZip overallTotal : Nat)
    (e : Entry) (s : ASt) : ASt × Option MergeErr :=
  if e.isDir then (s, none)
  else if shouldSkipPath e.name then (s, none)
  else
    let tm := mapTargetName pfx zname e.name s.dedup
    if e.headerErr then
      (⟨s.overallDone, tm.2, s.renders, s.outs, s.doneZip, s.r⟩, none)
    else if e.openErr then
      (⟨s.overallDone, tm.2, s.renders, s.outs, s.doneZip, s.r⟩, none)
    else
      let cc := copyChunks totalZip overallTotal e.writeErrAt e.chunks 0
        ⟨s.doneZip, s.overallDone, s.r, s.renders⟩
      if cc.2 then
        (⟨cc.1.od, tm.2, cc.1.rend, s.outs, cc.1.doneZip, cc.1.r⟩,
          some MergeErr.writeErr)
      else
        (⟨cc.1.od, tm.2, cc.1.rend,
            s.outs ++ [⟨zname, tm.1, cc.1.doneZip - s.doneZip⟩],
            cc.1.doneZip, cc.1.r⟩, none)

def procEntries (pfx : Bool) (zname : Str) (totalZip overallTotal : Nat) :
    List Entry → ASt → ASt × Option MergeErr
  | [], s => (s, none)
  | e :: es, s =>
    match procEntry pfx zname totalZip overallTotal e s with
    | (s', some err) => (s', some err)
    | (s', none) => procEntries pfx zname totalZip overallTotal es s'

/-- Job-wide state between archives. -/
structure MSt where
  overallDone : Nat
  dedup : DedupMap
  renders : List (Nat × Nat)
  outs : List OutEntry
deriving DecidableEq

/-- One archive of the merge loop (main.go:309-365): an archive that fails to
open is skipped with a warning; otherwise its entries are streamed (per-zip
counter and render state reset first) and a final progress line pins the zip
percentage to 100 (main.go:362). -/
def procArchive (pfx : Bool) (overallTotal : Nat) (z : SrcZip) (s : MSt) :
    MSt × Option MergeErr :=
  match z.entries with
  | none => (s, none)
  | some es =>
    let tz := sumUncompressed es
    let a0 : ASt := ⟨s.overallDone, s.dedup, s.renders, s.outs, 0, ⟨-1, -1⟩⟩
    match procEntries pfx z.name tz overallTotal es a0 with
    | (s', some err) =>
      (⟨s'.overallDone, s'.dedup, s'.renders, s'.outs⟩, some err)
    | (s', none) =>
      let pr := printZipProgress tz tz s'.overallDone overallTotal s'.r s'.renders
      (⟨s'.overallDone, s'.dedup, pr.2, s'.outs⟩, none)

def procAll (pfx : Bool) (overallTotal : Nat) :
    List SrcZip → MSt → MSt × Option MergeErr
  | [], s => (s, none)
  | z :: zs, s =>
    match procArchive pfx overallTotal z s with
    | (s', some err) => (s', some err)
    | (s', none) => procAll pfx overallTotal zs s'

/-- Go's byte-wise string order on ASCII strings (code-point order here). -/
def lexLt : Str → Str → Bool
  | [], [] => false
  | [], _ :: _ => true
  | _ :: _, [] => false
  | a :: s, b :: t => if a < b then true else if b < a then false else lexLt s t

def nameLt (a b : SrcZip) : Bool := lexLt a.name b.name

def selectMinBy (lt : SrcZip → SrcZip → Bool) :
    SrcZip → List SrcZip → SrcZip × List SrcZip
  | x, [] => (x, [])
  | x, y :: t =>
    if lt y x then
      let r := selectMinBy lt y t
      (r.1, x :: r.2)
    else
      let r := selectMinBy lt x t
      (r.1, y :: r.2)

def selSortAux (lt : SrcZip → SrcZip → Bool) :
    Nat → List SrcZip → List SrcZip
  | 0, _ => []
  | _ + 1, [] => []
  | f + 1, x :: t =>
    let r := selectMinBy lt x t
    r.1 :: selSortAux lt f r.2

/-- The ascending "simple sort" of `listZipFiles` (main.go:75-80), rendered
functionally as selection sort (the swap double-loop places the minimum of
the remaining suffix at each position); the fuel equals the list length. -/
def sortZips (dir : List SrcZip) : List SrcZip :=
  selSortAux nameLt dir.length dir

/-- `mergeZIP` (main.go:238-372) on unix, with `listZipFiles`'s glob filter
already applied to `dir` (glob matching is outside the claims under study):
report "no archives" on an empty list; compute the totals and the disk-space
requirement; reject before creating the output file when the measured free
space is positive yet below the requirement; then stream every archive and
finalize. -/
def mergeZIP (cfg : Cfg) (dir : List SrcZip) : RunOut :=
  let zips := sortZips dir
  if zips = [] then ⟨some MergeErr.noArchives, [], false, []⟩
  else
    let t := overallTotalOf zips
    let c := overallCompressedOf zips
    let free := (cfg.measuredFree.getD 0)
    let need := diskNeed cfg.store t c
    if 0 < free ∧ free < need then
      ⟨some (MergeErr.noSpace need free), [], false, []⟩
    else
      match procAll cfg.pfxByZip t zips ⟨0, [], [], []⟩ with
      | (s, some err) => ⟨some err, s.outs, true, s.renders⟩
      | (s, none) =>
        if cfg.closeErr then ⟨some MergeErr.closeErr, s.outs, true, s.renders⟩
        else ⟨none, s.outs, true, s.renders⟩

/-- Outcome of `rawSplit`: the part files (name, bytes) in creation order and
whether the original file was removed.  A byte is abstracted as a `Nat`. -/
structure SplitOut where
  parts : List (Str × List Nat)
  removedOriginal : Bool
deriving DecidableEq

/-- `%03d`: decimal, left-padded with zeros to at least three digits. -/
def pad3 (n : Nat) : Str :=
  List.replicate (3 - (natChars n).length) '0' ++ natChars n

/-- `fmt.Sprintf("%s%03d", path + ".part-", partIdx)` (main.go:199,205). -/
def partName (path : Str) (idx : Nat) : Str :=
  path ++ ['.', 'p', 'a', 'r', 't', '-'] ++ pad3 idx

/-- Successive `take partSize` slices of the data; fuel (the data length)
makes the recursion structural and suffices because each step consumes at
least one element when `0 < p`. -/
def splitChunksAux : Nat → Nat → List Nat → List (List Nat)
  | 0, _, _ => []
  | _ + 1, _, [] => []
  | f + 1, p, d => d.take p :: splitChunksAux f p (d.drop p)

/-- `rawSplit` (main.go:185-236), abstracted over the already-parsed part
size (`none` models the "split size must be > 0" error).  The 4 MiB I/O
buffer is invisible in the bytes-to-parts mapping: each outer-loop iteration
copies exactly `min partSize remaining` bytes into the next part.  A
zero-size input returns success before creating any part and before the
remove-original step (main.go:197); otherwise the original is removed only
after all parts are written (main.go:230-233). -/
def rawSplit (path : Str) (partSize : Nat) (rmAfter : Bool)
    (data : List Nat) : Option SplitOut :=
  if partSize = 0 then none
  else if data.length = 0 then some ⟨[], false⟩
  else
    let chunks := splitChunksAux data.length partSize data
    some ⟨chunks.enum.map (fun q => (partName path q.1, q.2)), rmAfter⟩

/-- Abstraction of a `DedupMap` by the occurrence-count function it stores:
`g k` is the stored counter for `k`, 0 meaning "absent". -/
def represents (m : DedupMap) (g : Str → Nat) : Prop :=
  ∀ k, lookupD m k = if g k = 0 then none else some (g k)

/-- The count function after one more occurrence of `b`. -/
def bump (g : Str → Nat) (b : Str) : Str → Nat :=
  fun k => if k = b then g k + 1 else g k

/-- The disk-space requirement in the spec's own staging (§4.3):
`required = uncompressed × 1.05` in store mode, and
`candidate = min(uncompressed, compressed × 1.25); required = candidate × 1.10`
in deflate mode — each named byte quantity truncated to an integer (the
`uint64(...)` conversions), the factors exact rationals. -/
def specRequired (store : Bool) (totalU totalC : Nat) : Nat :=
  if store then ⌊(totalU : ℚ) * 1.05⌋₊
  else ⌊(min (totalU : ℚ) ((⌊(totalC : ℚ) * 1.25⌋₊ : Nat) : ℚ)) * 1.10⌋₊

/-- Invariant threaded through the progress proofs: the overall percentages
rendered so far are non-decreasing, and the last rendered one is at most the
current overall percentage. -/
def rendersOk (overallTotal : Nat) (rend : List (Nat × Nat)) (od : Nat) : Prop :=
  List.Chain' (fun x y => x.2 ≤ y.2) rend ∧
    ∀ x ∈ rend.getLast?, x.2 ≤ pctOf od overallTotal

/-- Render-state invariant within one archive: whenever the last-printed
overall percentage is a (non-negative) number, the render list really ends
with a line carrying it. -/
def lastSync (rend : List (Nat × Nat)) (r : RState) : Prop :=
  ∀ n : Nat, r.la = (n : Int) → ∃ z, rend.getLast? = some (z, n)

/-- An entry the merge loop copies completely: not skipped, no injected
failure, and the delivered chunks add up to the declared size (directories
are vacuously fine — they are skipped and not counted in the totals). -/
def goodEntry (e : Entry) : Prop :=
  e.isDir = true ∨
    (shouldSkipPath e.name = false ∧ e.headerErr = false ∧ e.openErr = false ∧
      e.writeErrAt = none ∧ e.chunks.sum = e.usize)

/-- An archive that opens and all of whose entries copy completely. -/
def goodZip (z : SrcZip) : Prop :=
  ∃ es, z.entries = some es ∧ ∀ e ∈ es, goodEntry e

instance (e : Entry) : Decidable (goodEntry e) :=
  inferInstanceAs (Decidable (_ = true ∨ (_ = false ∧ _ = false ∧ _ = false ∧
    _ = none ∧ _ = _)))

/-! Numeric-literal lemmas: `natChars` is the decimal numeral. -/

theorem decRevAux_eq (f : Nat) :
    ∀ n : Nat, n ≤ f → decRevAux f n = (Nat.digits 10 n).map Nat.digitChar := by
  induction f with
  | zero =>
    intro n hn
    interval_cases n
    simp [decRevAux]
  | succ f ih =>
    intro n hn
    match n with
    | 0 => simp [decRevAux]
    | m + 1 =>
      rw [decRevAux, Nat.digits_def' (by norm_num : (1 : ℕ) < 10) (Nat.succ_pos m),
        List.map_cons]
      congr 1
      have hlt : (m + 1) / 10 < f + 1 :=
        lt_of_lt_of_le (Nat.div_lt_self (Nat.succ_pos m) (by norm_num)) hn
      exact ih _ (Nat.lt_succ_iff.mp hlt)

theorem natChars_eq (n : Nat) (h : n ≠ 0) :
    natChars n = ((Nat.digits 10 n).map Nat.digitChar).reverse := by
  unfold natChars
  rw [if_neg h, decRevAux_eq n n le_rfl]

theorem digitChar_toNat (d : Nat) (h : d < 10) :
    (Nat.digitChar d).toNat = 48 + d := by
  interval_cases d <;> decide

theorem digitChar_isDigit (d : Nat) (h : d < 10) :
    (Nat.digitChar d).isDigit = true := by
  interval_cases d <;> decide

theorem charsVal_digits (L : List Nat) (h : ∀ d ∈ L, d < 10) :
    List.foldr (fun d y => 10 * y + ((Nat.digitChar d).toNat - 48)) 0 L =
      Nat.ofDigits 10 L := by
  induction L with
  | nil => simp [Nat.ofDigits]
  | cons d L ih =>
    rw [List.foldr_cons, Nat.ofDigits_cons,
      ih (fun x hx => h x (List.mem_cons_of_mem _ hx)),
      digitChar_toNat d (h d (List.mem_cons_self _ _))]
    omega

theorem charsVal_natChars (n : Nat) : charsVal (natChars n) = n := by
  rcases eq_or_ne n 0 with rfl | h
  · decide
  · rw [natChars_eq n h]
    unfold charsVal
    rw [List.foldl_reverse, List.foldr_map]
    have hv := charsVal_digits (Nat.digits 10 n)
      (fun d hd => Nat.digits_lt_base (by norm_num) hd)
    rw [hv, Nat.ofDigits_digits]

theorem natChars_inj {m n : Nat} (h : natChars m = natChars n) : m = n := by
  have hv := congrArg charsVal h
  rwa [charsVal_natChars, charsVal_natChars] at hv

theorem natChars_ne_nil (n : Nat) : natChars n ≠ [] := by
  rcases eq_or_ne n 0 with rfl | h
  · decide
  · rw [natChars_eq n h]
    simp [Nat.digits_ne_nil_iff_ne_zero.mpr h]

theorem mem_natChars_isDigit {c : Char} {n : Nat} (h : c ∈ natChars n) :
    c.isDigit = true := by
  rcases eq_or_ne n 0 with rfl | hn
  · simp [natChars] at h
    subst h
    decide
  · rw [natChars_eq n hn, List.mem_reverse] at h
    rcases List.mem_map.mp h with ⟨d, hd, rfl⟩
    exact digitChar_isDigit d (Nat.digits_lt_base (by norm_num) hd)

/-! Structure of `splitExt` and of the `__dup` marker. -/

theorem dropWhile_head_false {p : Char → Bool} :
    ∀ {l : Str} {d : Char} {q : Str}, l.dropWhile p = d :: q → p d = false := by
  intro l
  induction l with
  | nil =>
    intro d q h
    simp at h
  | cons a t ih =>
    intro d q h
    rw [List.dropWhile_cons] at h
    cases hpa : p a
    · rw [hpa] at h
      simp at h
      rcases h with ⟨rfl, rfl⟩
      exact hpa
    · rw [hpa] at h
      simp at h
      exact ih h

theorem splitExt_append (b : Str) : (splitExt b).1 ++ (splitExt b).2 = b := by
  unfold splitExt
  rcases hd : b.reverse.dropWhile (fun c => c != '.') with _ | ⟨d, q⟩
  · simp
  · have hdot : d = '.' := by
      have hh := dropWhile_head_false hd
      simpa using hh
    have hsplit : b.reverse.takeWhile (fun c => c != '.') ++ d :: q =
        b.reverse := by
      rw [← hd]
      exact List.takeWhile_append_dropWhile _ _
    have hb := congrArg List.reverse hsplit
    rw [List.reverse_append, List.reverse_reverse, List.reverse_cons] at hb
    rw [if_neg (List.cons_ne_nil d q)]
    show q.reverse ++ '.' :: (b.reverse.takeWhile (fun c => c != '.')).reverse = b
    subst hdot
    rw [List.append_assoc, List.singleton_append] at hb
    exact hb

theorem splitExt_ext (b : Str) :
    (splitExt b).2 = [] ∨ ∃ u, (splitExt b).2 = '.' :: u := by
  unfold splitExt
  by_cases hq : b.reverse.dropWhile (fun c => c != '.') = []
  · left
    simp [hq]
  · right
    rw [if_neg hq]
    exact ⟨_, rfl⟩

theorem isSegAt_iff (pat : Str) :
    ∀ s : Str, isSegAt pat s = true ↔ ∃ v, s = pat ++ v := by
  induction pat with
  | nil =>
    intro s
    simp [isSegAt]
  | cons a p ih =>
    intro s
    cases s with
    | nil =>
      simp [isSegAt]
    | cons b t =>
      rw [isSegAt, Bool.and_eq_true, beq_iff_eq, ih t]
      constructor
      · rintro ⟨rfl, v, rfl⟩
        exact ⟨v, rfl⟩
      · rintro ⟨v, hv⟩
        rw [List.cons_append] at hv
        rcases List.cons.inj hv with ⟨rfl, rfl⟩
        exact ⟨rfl, v, rfl⟩

theorem containsSeg_iff (pat : Str) :
    ∀ s : Str, containsSeg pat s = true ↔ ∃ u v, s = u ++ pat ++ v := by
  intro s
  induction s with
  | nil =>
    rw [containsSeg, List.isEmpty_iff]
    constructor
    · rintro rfl
      exact ⟨[], [], rfl⟩
    · rintro ⟨u, v, h⟩
      rcases List.append_eq_nil.mp h.symm with ⟨h1, h2⟩
      exact (List.append_eq_nil.mp h1).2
  | cons c t ih =>
    rw [containsSeg, Bool.or_eq_true, isSegAt_iff, ih]
    constructor
    · rintro (⟨v, hv⟩ | ⟨u, v, rfl⟩)
      · exact ⟨[], v, by simpa using hv⟩
      · exact ⟨c :: u, v, rfl⟩
    · rintro ⟨u, v, h⟩
      cases u with
      | nil =>
        left
        exact ⟨v, by simpa using h⟩
      | cons x u' =>
        right
        rw [List.cons_append, List.cons_append] at h
        rcases List.cons.inj h with ⟨rfl, rfl⟩
        exact ⟨u', v, by simp⟩

theorem dupFree_iff (s : Str) : dupFree s ↔ ¬ ∃ u v, s = u ++ dupMark ++ v := by
  unfold dupFree
  rw [← containsSeg_iff]
  cases h : containsSeg dupMark s <;> simp [h]

theorem dupFree_append_left {a b : Str} (h : dupFree (a ++ b)) : dupFree a := by
  rw [dupFree_iff] at h ⊢
  rintro ⟨u, v, rfl⟩
  exact h ⟨u, v ++ b, by simp⟩

theorem dupFree_append_right {a b : Str} (h : dupFree (a ++ b)) : dupFree b := by
  rw [dupFree_iff] at h ⊢
  rintro ⟨u, v, rfl⟩
  exact h ⟨a ++ u, v, by simp⟩

theorem not_dupFree_insertDup (b : Str) (c : Nat) :
    ¬ dupFree (insertDup b c) := by
  rw [dupFree_iff]
  intro h
  exact h ⟨(splitExt b).1, natChars c ++ (splitExt b).2, by
    simp [insertDup, List.append_assoc]⟩

theorem dupFree_ne_insertDup {b' b : Str} {c : Nat} (h : dupFree b') :
    b' ≠ insertDup b c :=
  fun he => not_dupFree_insertDup b c (he ▸ h)

/-! Uniqueness of the `__dup` parse: a marker inserted into dup-free material
can be recovered unambiguously. -/

theorem dupParse_aux (t n1 e1 n2 e2 : Str)
    (heq : dupMark ++ (n1 ++ e1) = t ++ (dupMark ++ (n2 ++ e2)))
    (ht : containsSeg dupMark t = false) : t = [] := by
  rcases t with _ | ⟨a, _ | ⟨b, _ | ⟨c, _ | ⟨d, _ | ⟨e, t'⟩⟩⟩⟩⟩
  · rfl
  · simp [dupMark] at heq
  · simp [dupMark] at heq
  · simp [dupMark] at heq
  · simp [dupMark] at heq
  · exfalso
    simp only [dupMark, List.cons_append, List.nil_append, List.cons.injEq] at heq
    rcases heq with ⟨rfl, rfl, rfl, rfl, rfl, _⟩
    simp [containsSeg, isSegAt, dupMark] at ht

theorem numExtSplit :
    ∀ (n1 : Str) (e1 n2 e2 : Str),
      (∀ c ∈ n1, c.isDigit = true) → (∀ c ∈ n2, c.isDigit = true) →
      (e1 = [] ∨ ∃ u, e1 = '.' :: u) → (e2 = [] ∨ ∃ u, e2 = '.' :: u) →
      n1 ++ e1 = n2 ++ e2 → n1 = n2 ∧ e1 = e2 := by
  intro n1
  induction n1 with
  | nil =>
    intro e1 n2 e2 _ hn2 he1 _ heq
    cases n2 with
    | nil => exact ⟨rfl, heq⟩
    | cons b t2 =>
      exfalso
      rw [List.nil_append, List.cons_append] at heq
      rcases he1 with rfl | ⟨u, rfl⟩
      · exact List.cons_ne_nil _ _ heq.symm
      · rcases List.cons.inj heq with ⟨hdot, _⟩
        have hb := hn2 b (List.mem_cons_self _ _)
        rw [← hdot] at hb
        exact absurd hb (by decide)
  | cons a t1 ih =>
    intro e1 n2 e2 hn1 hn2 he1 he2 heq
    cases n2 with
    | nil =>
      exfalso
      rw [List.nil_append, List.cons_append] at heq
      rcases he2 with rfl | ⟨u, rfl⟩
      · exact List.cons_ne_nil _ _ heq
      · rcases List.cons.inj heq with ⟨hdot, _⟩
        have ha := hn1 a (List.mem_cons_self _ _)
        rw [hdot] at ha
        exact absurd ha (by decide)
    | cons b t2 =>
      rw [List.cons_append, List.cons_append] at heq
      rcases List.cons.inj heq with ⟨rfl, htail⟩
      rcases ih e1 t2 e2 (fun c hc => hn1 c (List.mem_cons_of_mem _ hc))
        (fun c hc => hn2 c (List.mem_cons_of_mem _ hc)) he1 he2 htail with ⟨rfl, rfl⟩
      exact ⟨rfl, rfl⟩

theorem insertDup_inj {b1 b2 : Str} {c1 c2 : Nat}
    (h1 : dupFree b1) (h2 : dupFree b2)
    (heq : insertDup b1 c1 = insertDup b2 c2) : b1 = b2 ∧ c1 = c2 := by
  have hb1 := splitExt_append b1
  have hb2 := splitExt_append b2
  have hx1 := splitExt_ext b1
  have hx2 := splitExt_ext b2
  have hr1 : dupFree (splitExt b1).1 := dupFree_append_left (hb1 ▸ h1)
  have hr2 : dupFree (splitExt b2).1 := dupFree_append_left (hb2 ▸ h2)
  rw [insertDup, insertDup, List.append_assoc, List.append_assoc,
    List.append_assoc, List.append_assoc] at heq
  rcases List.append_eq_append_iff.mp heq with ⟨t, hc, hsuf⟩ | ⟨t, hc, hsuf⟩
  · have htf : containsSeg dupMark t = false :=
      dupFree_append_right (hc ▸ hr2)
    have ht0 : t = [] := dupParse_aux t (natChars c1) (splitExt b1).2
      (natChars c2) (splitExt b2).2 hsuf htf
    subst ht0
    rw [List.append_nil] at hc
    rw [List.nil_append] at hsuf
    have hne := List.append_cancel_left hsuf
    rcases numExtSplit (natChars c1) (splitExt b1).2 (natChars c2)
      (splitExt b2).2 (fun c hc => mem_natChars_isDigit hc)
      (fun c hc => mem_natChars_isDigit hc) hx1 hx2 hne with ⟨hn, he⟩
    constructor
    · rw [← hb1, ← hb2, hc, he]
    · exact natChars_inj hn
  · have htf : containsSeg dupMark t = false :=
      dupFree_append_right (hc ▸ hr1)
    have ht0 : t = [] := dupParse_aux t (natChars c2) (splitExt b2).2
      (natChars c1) (splitExt b1).2 hsuf htf
    subst ht0
    rw [List.append_nil] at hc
    rw [List.nil_append] at hsuf
    have hne := List.append_cancel_left hsuf
    rcases numExtSplit (natChars c2) (splitExt b2).2 (natChars c1)
      (splitExt b1).2 (fun c hc => mem_natChars_isDigit hc)
      (fun c hc => mem_natChars_isDigit hc) hx2 hx1 hne with ⟨hn, he⟩
    constructor
    · rw [← hb1, ← hb2, hc, he]
    · exact (natChars_inj hn).symm

/-! The dedup table as an occurrence-count function. -/

theorem lookupD_setD_self (m : DedupMap) (k : Str) (v : Nat) :
    lookupD (setD m k v) k = some v := by
  induction m with
  | nil => simp [setD, lookupD]
  | cons kv t ih =>
    rcases kv with ⟨k', v'⟩
    by_cases hk : k = k'
    · subst hk
      simp [setD, lookupD]
    · simp [setD, lookupD, hk, ih]

theorem lookupD_setD_ne (m : DedupMap) (k k' : Str) (v : Nat) (h : k' ≠ k) :
    lookupD (setD m k v) k' = lookupD m k' := by
  induction m with
  | nil => simp [setD, lookupD, h]
  | cons kv t ih =>
    rcases kv with ⟨k0, v0⟩
    by_cases hk : k = k0
    · subst hk
      simp [setD, lookupD, h, ih]
    · by_cases hk' : k' = k0
      · subst hk'
        simp [setD, lookupD, hk, ih]
      · simp [setD, lookupD, hk, hk', ih]

theorem dedupStep_represents {m : DedupMap} {g : Str → Nat}
    (h : represents m g) (b : Str) :
    (dedupStep b m).1 = (if g b = 0 then b else insertDup b (g b)) ∧
      represents (dedupStep b m).2 (bump g b) := by
  unfold dedupStep
  rw [h b]
  by_cases hg : g b = 0
  · rw [if_pos hg, if_pos hg]
    refine ⟨rfl, fun k => ?_⟩
    by_cases hk : k = b
    · subst hk
      simp [bump, lookupD_setD_self, hg]
    · rw [lookupD_setD_ne _ _ _ _ hk, h k]
      simp [bump, hk]
  · rw [if_neg hg, if_neg hg]
    refine ⟨rfl, fun k => ?_⟩
    by_cases hk : k = b
    · subst hk
      simp [bump, lookupD_setD_self]
    · rw [lookupD_setD_ne _ _ _ _ hk, h k]
      simp [bump, hk]

theorem bump_ge {g : Str → Nat} {b : Str} (k : Str) : g k ≤ bump g b k := by
  unfold bump
  by_cases hk : k = b <;> simp [hk]

theorem not_plain_mem_runDedup (b : Str) (hb : dupFree b) :
    ∀ (bs : List Str) (m : DedupMap) (g : Str → Nat),
      represents m g → 1 ≤ g b → b ∉ runDedup m bs := by
  intro bs
  induction bs with
  | nil =>
    intro m g _ _ h
    simp [runDedup] at h
  | cons b' bs ih =>
    intro m g hrep hg hmem
    rw [runDedup] at hmem
    rcases dedupStep_represents hrep b' with ⟨hout, hrep'⟩
    rcases List.mem_cons.mp hmem with h1 | h2
    · rw [hout] at h1
      by_cases hgb' : g b' = 0
      · rw [if_pos hgb'] at h1
        subst h1
        omega
      · rw [if_neg hgb'] at h1
        exact dupFree_ne_insertDup hb h1
    · exact ih _ _ hrep' (le_trans hg (bump_ge b)) h2

theorem not_dup_mem_runDedup (b : Str) (hb : dupFree b) :
    ∀ (bs : List Str) (m : DedupMap) (g : Str → Nat) (c : Nat),
      represents m g → (∀ x ∈ bs, dupFree x) → c < g b →
      insertDup b c ∉ runDedup m bs := by
  intro bs
  induction bs with
  | nil =>
    intro m g c _ _ _ h
    simp [runDedup] at h
  | cons b' bs ih =>
    intro m g c hrep hdf hcg hmem
    rw [runDedup] at hmem
    rcases dedupStep_represents hrep b' with ⟨hout, hrep'⟩
    rcases List.mem_cons.mp hmem with h1 | h2
    · rw [hout] at h1
      by_cases hgb' : g b' = 0
      · rw [if_pos hgb'] at h1
        exact dupFree_ne_insertDup (hdf b' (List.mem_cons_self _ _)) h1.symm
      · rw [if_neg hgb'] at h1
        rcases insertDup_inj hb (hdf b' (List.mem_cons_self _ _)) h1 with ⟨rfl, rfl⟩
        omega
    · exact ih _ _ _ hrep' (fun x hx => hdf x (List.mem_cons_of_mem _ hx))
        (lt_of_lt_of_le hcg (bump_ge b)) h2

theorem runDedup_nodup :
    ∀ (bs : List Str) (m : DedupMap) (g : Str → Nat),
      represents m g → (∀ x ∈ bs, dupFree x) → (runDedup m bs).Nodup := by
  intro bs
  induction bs with
  | nil =>
    intro m g _ _
    simp [runDedup]
  | cons b bs ih =>
    intro m g hrep hdf
    rw [runDedup]
    rcases dedupStep_represents hrep b with ⟨hout, hrep'⟩
    refine List.nodup_cons.mpr ⟨?_, ih _ _ hrep'
      (fun x hx => hdf x (List.mem_cons_of_mem _ hx))⟩
    rw [hout]
    by_cases hgb : g b = 0
    · rw [if_pos hgb]
      refine not_plain_mem_runDedup b (hdf b (List.mem_cons_self _ _)) bs _ _ hrep' ?_
      simp [bump]
    · rw [if_neg hgb]
      refine not_dup_mem_runDedup b (hdf b (List.mem_cons_self _ _)) bs _ _ (g b)
        hrep' (fun x hx => hdf x (List.mem_cons_of_mem _ hx)) ?_
      simp [bump]

theorem represents_empty : represents [] (fun _ => 0) := by
  intro k
  simp [lookupD]

theorem runMap_represents :
    ∀ (bs : List Str) (m : DedupMap) (g : Str → Nat), represents m g →
      represents (runMap m bs) (fun k => g k + List.count k bs) := by
  intro bs
  induction bs with
  | nil =>
    intro m g h
    simpa [runMap] using h
  | cons b bs ih =>
    intro m g hrep
    rw [runMap]
    have h2 := ih _ _ (dedupStep_represents hrep b).2
    intro k
    rw [h2 k]
    have hc : bump g b k + List.count k bs = g k + List.count k (b :: bs) := by
      rw [List.count_cons]
      unfold bump
      by_cases hk : k = b
      · subst hk
        simp
        omega
      · simp [hk, Ne.symm hk]
    simp only [hc]

theorem runMap_append :
    ∀ (bs bs' : List Str) (m : DedupMap),
      runMap m (bs ++ bs') = runMap (runMap m bs) bs' := by
  intro bs
  induction bs with
  | nil =>
    intro bs' m
    rfl
  | cons b bs ih =>
    intro bs' m
    rw [List.cons_append, runMap, runMap]
    exact ih bs' _

theorem runDedup_append :
    ∀ (bs bs' : List Str) (m : DedupMap),
      runDedup m (bs ++ bs') = runDedup m bs ++ runDedup (runMap m bs) bs' := by
  intro bs
  induction bs with
  | nil =>
    intro bs' m
    simp [runDedup, runMap]
  | cons b bs ih =>
    intro bs' m
    rw [List.cons_append, runDedup, runDedup, runMap, List.cons_append, ih]

theorem dedupTargets_eq (pfx : Bool) :
    ∀ (qs : List (Str × Str)) (m : DedupMap),
      dedupTargets pfx qs m =
        runDedup m (qs.map (fun q => buildBase pfx q.1 q.2)) := by
  intro qs
  induction qs with
  | nil =>
    intro m
    rfl
  | cons q qs ih =>
    intro m
    rw [dedupTargets, List.map_cons, runDedup, ih]
    rfl

/-- C2: for every candidate target path, the deduplicator returns the first
occurrence unchanged and seeds its counter at 1; the (k+1)-st occurrence of
the same normalized candidate returns the candidate with `__dup<k>` inserted
immediately before the final extension separator (or appended at the end if
the candidate has no dot — both cases are `insertDup`), so N starts at 1 and
increments by 1 per collision, and the stored counter advances to the
occurrence count. -/
theorem C2_dedup_occurrence (pre : List Str) (b : Str) :
    runDedup [] (pre ++ [b]) =
      runDedup [] pre ++
        [if List.count b pre = 0 then b else insertDup b (List.count b pre)] ∧
      lookupD (runMap [] (pre ++ [b])) b = some (List.count b pre + 1) := by
  have hrep := runMap_represents pre [] (fun _ => 0) represents_empty
  constructor
  · rw [runDedup_append]
    congr 1
    rw [runDedup, runDedup]
    rcases dedupStep_represents hrep b with ⟨hout, _⟩
    rw [hout]
    simp
  · rw [runMap_append, runMap, runMap]
    rcases dedupStep_represents hrep b with ⟨_, hrep'⟩
    rw [hrep' b]
    simp [bump]

/-- C3 as stated is false: an input whose literal entry name already carries
a `__dup1` suffix collides with the deduplicator's own renaming.  Inner
paths `a__dup1.t`, `a.t`, `a.t` (flat mode, one job) produce the target
`a__dup1.t` twice. -/
theorem C3_counterexample :
    ¬ (dedupTargets false
        [(['z', '.', 'z', 'i', 'p'], ['a', '_', '_', 'd', 'u', 'p', '1', '.', 't']),
         (['z', '.', 'z', 'i', 'p'], ['a', '.', 't']),
         (['z', '.', 'z', 'i', 'p'], ['a', '.', 't'])] []).Nodup := by
  decide

/-- C3 (amended): for every sequence of (archive name, inner path) inputs in
one job whose built candidate paths never contain the `__dup` marker, the
target paths returned by the deduplicator are pairwise distinct. -/
theorem C3_amended_nodup (pfx : Bool) (qs : List (Str × Str))
    (h : ∀ q ∈ qs, dupFree (buildBase pfx q.1 q.2)) :
    (dedupTargets pfx qs []).Nodup := by
  rw [dedupTargets_eq]
  refine runDedup_nodup _ [] (fun _ => 0) represents_empty ?_
  intro x hx
  rcases List.mem_map.mp hx with ⟨q, hq, rfl⟩
  exact h q hq

/-- Witness: the amended C3 applied to a concrete two-archive collision job. -/
theorem C3_amended_nodup_witness :
    (∀ q ∈ [((['x', '.', 'z', 'i', 'p'] : Str), (['a', '.', 't'] : Str)),
            (['y', '.', 'z', 'i', 'p'], ['a', '.', 't'])],
        dupFree (buildBase false q.1 q.2)) ∧
      (dedupTargets false
        [(['x', '.', 'z', 'i', 'p'], ['a', '.', 't']),
         (['y', '.', 'z', 'i', 'p'], ['a', '.', 't'])] []).Nodup :=
  ⟨by decide, C3_amended_nodup false _ (by decide)⟩

/-- C1 as stated is false: the `__dup1` disambiguator is inserted before the
final extension separator, so two single-entry archives `b.zip`, `a.zip`
each holding `a.txt` merge (flat) to `a.txt` and `a__dup1.txt` — the claimed
`a.txt__dup1` never appears. -/
theorem C1_counterexample :
    (mergeZIP ⟨true, false, none, false⟩
      [⟨['b', '.', 'z', 'i', 'p'],
        some [⟨['a', '.', 't', 'x', 't'], false, 2, 1, [2], false, false, false, none⟩]⟩,
       ⟨['a', '.', 'z', 'i', 'p'],
        some [⟨['a', '.', 't', 'x', 't'], false, 1, 1, [1], false, false, false, none⟩]⟩]).outs.map
        OutEntry.target =
      [['a', '.', 't', 'x', 't'],
       ['a', '_', '_', 'd', 'u', 'p', '1', '.', 't', 'x', 't']] ∧
    ['a', '.', 't', 'x', 't', '_', '_', 'd', 'u', 'p', '1'] ∉
      (mergeZIP ⟨true, false, none, false⟩
        [⟨['b', '.', 'z', 'i', 'p'],
          some [⟨['a', '.', 't', 'x', 't'], false, 2, 1, [2], false, false, false, none⟩]⟩,
         ⟨['a', '.', 'z', 'i', 'p'],
          some [⟨['a', '.', 't', 'x', 't'], false, 1, 1, [1], false, false, false, none⟩]⟩]).outs.map
          OutEntry.target := by
  decide

/-- C1 (amended): with the dup marker inserted before the final extension
separator, the two flat merges produce exactly `a.txt`/`a__dup1.txt` and
`root/file.txt`/`root/file__dup1.txt`, the unsuffixed name going to the
entry of the lexicographically-first archive (inputs are listed out of
order, so this also checks the sort); prefixed mode produces
`x/root/file.txt` and `y/root/file.txt` with no collision. -/
theorem C1_amended_targets :
    (mergeZIP ⟨true, false, none, false⟩
      [⟨['b', '.', 'z', 'i', 'p'],
        some [⟨['a', '.', 't', 'x', 't'], false, 2, 1, [2], false, false, false, none⟩]⟩,
       ⟨['a', '.', 'z', 'i', 'p'],
        some [⟨['a', '.', 't', 'x', 't'], false, 1, 1, [1], false, false, false, none⟩]⟩]).outs.map
        (fun o => (o.src, o.target)) =
      [(['a', '.', 'z', 'i', 'p'], ['a', '.', 't', 'x', 't']),
       (['b', '.', 'z', 'i', 'p'],
        ['a', '_', '_', 'd', 'u', 'p', '1', '.', 't', 'x', 't'])] ∧
    (mergeZIP ⟨true, false, none, false⟩
      [⟨['y', '.', 'z', 'i', 'p'],
        some [⟨['r', 'o', 'o', 't', '/', 'f', 'i', 'l', 'e', '.', 't', 'x', 't'],
          false, 1, 1, [1], false, false, false, none⟩]⟩,
       ⟨['x', '.', 'z', 'i', 'p'],
        some [⟨['r', 'o', 'o', 't', '/', 'f', 'i', 'l', 'e', '.', 't', 'x', 't'],
          false, 1, 1, [1], false, false, false, none⟩]⟩]).outs.map
        (fun o => (o.src, o.target)) =
      [(['x', '.', 'z', 'i', 'p'],
        ['r', 'o', 'o', 't', '/', 'f', 'i', 'l', 'e', '.', 't', 'x', 't']),
       (['y', '.', 'z', 'i', 'p'],
        ['r', 'o', 'o', 't', '/', 'f', 'i', 'l', 'e', '_', '_', 'd', 'u', 'p', '1',
         '.', 't', 'x', 't'])] ∧
    (mergeZIP ⟨true, true, none, false⟩
      [⟨['y', '.', 'z', 'i', 'p'],
        some [⟨['r', 'o', 'o', 't', '/', 'f', 'i', 'l', 'e', '.', 't', 'x', 't'],
          false, 1, 1, [1], false, false, false, none⟩]⟩,
       ⟨['x', '.', 'z', 'i', 'p'],
        some [⟨['r', 'o', 'o', 't', '/', 'f', 'i', 'l', 'e', '.', 't', 'x', 't'],
          false, 1, 1, [1], false, false, false, none⟩]⟩]).outs.map
        OutEntry.target =
      [['x', '/', 'r', 'o', 'o', 't', '/', 'f', 'i', 'l', 'e', '.', 't', 'x', 't'],
       ['y', '/', 'r', 'o', 'o', 't', '/', 'f', 'i', 'l', 'e', '.', 't', 'x', 't']] := by
  refine ⟨by decide, by decide, by decide⟩

/-! The disk-space estimator. -/

theorem natFloor_mul_div (u a b : Nat) :
    ⌊(u : ℚ) * ((a : ℕ) / (b : ℕ) : ℚ)⌋₊ = u * a / b := by
  have h : (u : ℚ) * ((a : ℕ) / (b : ℕ) : ℚ) =
      ((u * a : ℕ) : ℚ) / ((b : ℕ) : ℚ) := by
    push_cast
    ring
  rw [h, Nat.floor_div_nat, Nat.floor_natCast]

theorem diskNeed_eq_specRequired (st : Bool) (u c : Nat) :
    diskNeed st u c = specRequired st u c := by
  have h105 : (1.05 : ℚ) = ((21 : ℕ) / (20 : ℕ) : ℚ) := by norm_num
  have h125 : (1.25 : ℚ) = ((5 : ℕ) / (4 : ℕ) : ℚ) := by norm_num
  have h110 : (1.10 : ℚ) = ((11 : ℕ) / (10 : ℕ) : ℚ) := by norm_num
  cases st with
  | true =>
    show u * 21 / 20 = ⌊(u : ℚ) * 1.05⌋₊
    rw [h105, natFloor_mul_div]
  | false =>
    show (if c * 5 / 4 > u then u else c * 5 / 4) * 11 / 10 =
      ⌊(min (u : ℚ) ((⌊(c : ℚ) * 1.25⌋₊ : Nat) : ℚ)) * 1.10⌋₊
    rw [h125, natFloor_mul_div, h110]
    rw [← Nat.cast_min, natFloor_mul_div]
    congr 2
    rcases Nat.lt_or_ge u (c * 5 / 4) with hlt | hge
    · rw [if_pos hlt, Nat.min_eq_left (Nat.le_of_lt hlt)]
    · rw [if_neg (by omega), Nat.min_eq_right hge]

/-- C4: the estimator computes required bytes as `uncompressed × 1.05` in
store mode and `min(uncompressed, compressed × 1.25) × 1.10` in deflate mode
(integer byte counts, factors exact); for overall uncompressed = 10 GiB in
store mode the requirement is exactly 10.5 GiB, so the job refuses to start
with 10 GiB available (reporting need and free) and proceeds with 11 GiB. -/
theorem C4_estimator :
    (∀ (st : Bool) (u c : Nat), diskNeed st u c = specRequired st u c) ∧
    diskNeed true 10737418240 0 = 11274289152 ∧
    (mergeZIP ⟨true, false, some 10737418240, false⟩
      [⟨['a', '.', 'z', 'i', 'p'],
        some [⟨['x'], false, 10737418240, 0, [], false, false, false, none⟩]⟩]).result =
      some (MergeErr.noSpace 11274289152 10737418240) ∧
    (mergeZIP ⟨true, false, some 11811160064, false⟩
      [⟨['a', '.', 'z', 'i', 'p'],
        some [⟨['x'], false, 10737418240, 0, [], false, false, false, none⟩]⟩]).result =
      none := by
  exact ⟨diskNeed_eq_specRequired, by decide, by decide, by decide⟩

/-! The disk-space gate. -/

/-- C5 as stated is false at a measured free space of 0 bytes: the gate
condition `freeBytes > 0 && freeBytes < need` conflates "measured as zero"
with "unmeasurable", so a job whose output volume measurably has 0 bytes
free (need = 105 bytes here) is not rejected — it proceeds and creates the
output file. -/
theorem C5_counterexample :
    (mergeZIP ⟨true, false, some 0, false⟩
      [⟨['a', '.', 'z', 'i', 'p'],
        some [⟨['x'], false, 100, 0, [100], false, false, false, none⟩]⟩]).result =
      none ∧
    (mergeZIP ⟨true, false, some 0, false⟩
      [⟨['a', '.', 'z', 'i', 'p'],
        some [⟨['x'], false, 100, 0, [100], false, false, false, none⟩]⟩]).createdOutFile =
      true ∧
    0 < diskNeed true 100 0 := by
  decide

/-- C5 (amended): whenever the measured free space is positive and below the
computed requirement, the job is rejected carrying both values, before the
output file is created and before any entry or progress line is produced;
when free space is unmeasurable (or measured as zero) the check is skipped
and the job proceeds to create the output. -/
theorem C5_amended (cfg : Cfg) (dir : List SrcZip) (hne : sortZips dir ≠ []) :
    (∀ a : Nat, cfg.measuredFree = some a → 0 < a →
      a < diskNeed cfg.store (overallTotalOf (sortZips dir))
        (overallCompressedOf (sortZips dir)) →
      mergeZIP cfg dir = ⟨some (MergeErr.noSpace
        (diskNeed cfg.store (overallTotalOf (sortZips dir))
          (overallCompressedOf (sortZips dir))) a), [], false, []⟩) ∧
    (cfg.measuredFree = none → (mergeZIP cfg dir).createdOutFile = true) := by
  constructor
  · intro a hm ha hlt
    simp only [mergeZIP]
    rw [if_neg hne, hm]
    simp only [Option.getD_some]
    rw [if_pos ⟨ha, hlt⟩]
  · intro hm
    simp only [mergeZIP]
    rw [if_neg hne, hm]
    rw [if_neg (by simp)]
    split
    · rfl
    · split
      · rfl
      · rfl

/-- Witness: the amended C5 at a one-archive job (need 105 B, free 5 B). -/
theorem C5_amended_witness :
    mergeZIP ⟨true, false, some 5, false⟩
      [⟨['a', '.', 'z', 'i', 'p'],
        some [⟨['x'], false, 100, 0, [100], false, false, false, none⟩]⟩] =
      ⟨some (MergeErr.noSpace 105 5), [], false, []⟩ :=
  (C5_amended _ _ (by decide)).1 5 rfl (by decide) (by decide)

/-! Catalog totals. -/

/-- C6 as stated is false: `sumUncompressed` and the compressed-size loop sum
every non-directory entry; an entry under `__MACOSX/` (or named
`*.DS_Store`) matches the skip rules yet still contributes its full sizes to
the totals. -/
theorem C6_counterexample :
    shouldSkipPath ['_', '_', 'M', 'A', 'C', 'O', 'S', 'X', '/', 'a'] = true ∧
    sumUncompressed
      [⟨['_', '_', 'M', 'A', 'C', 'O', 'S', 'X', '/', 'a'], false, 7, 3, [],
        false, false, false, none⟩] = 7 ∧
    sumCompressed
      [⟨['_', '_', 'M', 'A', 'C', 'O', 'S', 'X', '/', 'a'], false, 7, 3, [],
        false, false, false, none⟩] = 3 := by
  decide

/-- C6 (amended): the catalog's totals sum the uncompressed and compressed
sizes of exactly the non-directory entries — the `__MACOSX/`/`.DS_Store`
skip rules play no role in the totals, and every non-directory entry
contributes its full sizes. -/
theorem C6_amended :
    (∀ es : List Entry,
      sumUncompressed es = ((es.filter (fun e => !e.isDir)).map Entry.usize).sum ∧
      sumCompressed es = ((es.filter (fun e => !e.isDir)).map Entry.csize).sum) ∧
    (∀ e : Entry, e.isDir = false →
      sumUncompressed [e] = e.usize ∧ sumCompressed [e] = e.csize) := by
  constructor
  · intro es
    induction es with
    | nil => exact ⟨rfl, rfl⟩
    | cons f fs ih =>
      rcases ih with ⟨h1, h2⟩
      constructor
      · rw [sumUncompressed, h1]
        cases hd : f.isDir <;> simp [hd]
      · rw [sumCompressed, h2]
        cases hd : f.isDir <;> simp [hd]
  · intro e he
    constructor <;> simp [sumUncompressed, sumCompressed, he]

/-- Witness: the amended C6 at a concrete skip-rule entry. -/
theorem C6_amended_witness :
    sumUncompressed
      [⟨['b', '.', 'D', 'S', '_', 'S', 't', 'o', 'r', 'e'], false, 9, 4, [],
        false, false, false, none⟩] = 9 ∧
    sumCompressed
      [⟨['b', '.', 'D', 'S', '_', 'S', 't', 'o', 'r', 'e'], false, 9, 4, [],
        false, false, false, none⟩] = 4 :=
  C6_amended.2 _ rfl

/-! Fatal versus per-entry errors. -/

/-- C7 as stated is false: an error creating the output entry header does
not abort the job — the entry is skipped with a warning and the merge
continues into the next archive, finishing successfully. -/
theorem C7_counterexample :
    (mergeZIP ⟨true, false, none, false⟩
      [⟨['a', '.', 'z', 'i', 'p'],
        some [⟨['f'], false, 1, 1, [1], false, true, false, none⟩]⟩,
       ⟨['b', '.', 'z', 'i', 'p'],
        some [⟨['g'], false, 1, 1, [1], false, false, false, none⟩]⟩]).result =
      none ∧
    (mergeZIP ⟨true, false, none, false⟩
      [⟨['a', '.', 'z', 'i', 'p'],
        some [⟨['f'], false, 1, 1, [1], false, true, false, none⟩]⟩,
       ⟨['b', '.', 'z', 'i', 'p'],
        some [⟨['g'], false, 1, 1, [1], false, false, false, none⟩]⟩]).outs.map
        OutEntry.src = [['b', '.', 'z', 'i', 'p']] := by
  decide

/-- The only fatal result the merge surfaces when finalization succeeds is
already ruled out: a close/finalize failure always yields an error result. -/
theorem mergeZIP_closeErr_fatal (cfg : Cfg) (dir : List SrcZip)
    (hce : cfg.closeErr = true) : (mergeZIP cfg dir).result ≠ none := by
  intro h
  simp only [mergeZIP] at h
  split at h
  · simp at h
  · split at h
    · simp at h
    · split at h
      · simp at h
      · simp [hce] at h

/-- The copy loop aborts only when the write oracle fires: a pure read
(including EOF or a read error, which merely end the chunk list) never
sets the abort flag. -/
theorem copyChunks_abort_write {tz T : Nat} {w : Option Nat} :
    ∀ (chunks : List Nat) (i : Nat) (c : CopySt),
      (copyChunks tz T w chunks i c).2 = true → ∃ j, w = some j := by
  intro chunks
  induction chunks with
  | nil =>
    intro i c h
    simp [copyChunks] at h
  | cons n rest ih =>
    intro i c h
    rw [copyChunks] at h
    by_cases hn : 0 < n
    · rw [if_pos hn] at h
      by_cases hw : w = some i
      · exact ⟨i, hw⟩
      · rw [if_neg hw] at h
        exact ih _ _ h
    · rw [if_neg hn] at h
      exact ih _ _ h

/-- A failing write aborts the entry with `writeErr` and the failing entry
is not recorded in the output listing. -/
theorem procEntry_writeAbort (pfx : Bool) (zn : Str) (tz T : Nat) (e : Entry)
    (s : ASt) (hd : e.isDir = false) (hs : shouldSkipPath e.name = false)
    (hh : e.headerErr = false) (ho : e.openErr = false)
    (hab : (copyChunks tz T e.writeErrAt e.chunks 0
      ⟨s.doneZip, s.overallDone, s.r, s.renders⟩).2 = true) :
    (procEntry pfx zn tz T e s).2 = some MergeErr.writeErr ∧
      (procEntry pfx zn tz T e s).1.outs = s.outs := by
  unfold procEntry
  rw [if_neg (by simp [hd]), if_neg (by simp [hs]), if_neg (by simp [hh]),
    if_neg (by simp [ho]), if_pos hab]
  exact ⟨rfl, rfl⟩

/-- A failing `CreateHeader` only consumes the dedup counter and skips the
entry: no bytes, no output record, no render, and the loop continues. -/
theorem procEntry_headerSkip (pfx : Bool) (zn : Str) (tz T : Nat) (e : Entry)
    (s : ASt) (hd : e.isDir = false) (hs : shouldSkipPath e.name = false)
    (hh : e.headerErr = true) :
    procEntry pfx zn tz T e s =
      (⟨s.overallDone, (mapTargetName pfx zn e.name s.dedup).2, s.renders,
        s.outs, s.doneZip, s.r⟩, none) := by
  unfold procEntry
  rw [if_neg (by simp [hd]), if_neg (by simp [hs]), if_pos hh]

/-- The only error a single entry can raise is the write error. -/
theorem procEntry_err_write (pfx : Bool) (zn : Str) (tz T : Nat) (e : Entry)
    (s : ASt) (err : MergeErr)
    (h : (procEntry pfx zn tz T e s).2 = some err) :
    err = MergeErr.writeErr := by
  unfold procEntry at h
  by_cases hd : e.isDir = true
  · rw [if_pos hd] at h
    simp at h
  · rw [if_neg hd] at h
    by_cases hs : shouldSkipPath e.name = true
    · rw [if_pos hs] at h
      simp at h
    · rw [if_neg hs] at h
      by_cases hh : e.headerErr = true
      · rw [if_pos hh] at h
        simp at h
      · rw [if_neg hh] at h
        by_cases ho : e.openErr = true
        · rw [if_pos ho] at h
          simp at h
        · rw [if_neg ho] at h
          by_cases hab : (copyChunks tz T e.writeErrAt e.chunks 0
              ⟨s.doneZip, s.overallDone, s.r, s.renders⟩).2 = true
          · rw [if_pos hab] at h
            exact (Option.some.inj h).symm
          · rw [if_neg hab] at h
            simp at h

/-- The only error the entry loop can raise is the write error. -/
theorem procEntries_err_write (pfx : Bool) (zn : Str) (tz T : Nat) :
    ∀ (es : List Entry) (s s' : ASt) (err : MergeErr),
      procEntries pfx zn tz T es s = (s', some err) →
      err = MergeErr.writeErr := by
  intro es
  induction es with
  | nil =>
    intro s s' err h
    simp [procEntries] at h
  | cons e es ih =>
    intro s s' err h
    rw [procEntries] at h
    rcases hq : procEntry pfx zn tz T e s with ⟨s0, err0⟩
    rw [hq] at h
    cases err0 with
    | some e0 =>
      simp at h
      rw [← h.2]
      exact procEntry_err_write pfx zn tz T e s e0 (by rw [hq])
    | none =>
      exact ih s0 s' err h

/-- The only error an archive's processing can raise is the write error
(failed opens and failed entry headers/opens are warn-and-skip). -/
theorem procArchive_err_write (pfx : Bool) (T : Nat) (z : SrcZip)
    (s s' : MSt) (err : MergeErr)
    (h : procArchive pfx T z s = (s', some err)) : err = MergeErr.writeErr := by
  simp only [procArchive] at h
  split at h
  · simp at h
  · rename_i es hz
    split at h
    · rename_i s1 e1 hp
      simp at h
      rw [← h.2]
      exact procEntries_err_write pfx z.name (sumUncompressed es) T es _ s1 e1 hp
    · rename_i s1 hp
      simp at h

/-- A fatal entry error stops the entry loop at exactly the failing entry:
the entries after it are never processed and the state at the abort point
is surfaced unchanged. -/
theorem procEntries_append_abort (pfx : Bool) (zn : Str) (tz T : Nat) :
    ∀ (es1 : List Entry) (e : Entry) (es2 : List Entry) (s s1 s2 : ASt)
      (err : MergeErr),
      procEntries pfx zn tz T es1 s = (s1, none) →
      procEntry pfx zn tz T e s1 = (s2, some err) →
      procEntries pfx zn tz T (es1 ++ e :: es2) s = (s2, some err) := by
  intro es1
  induction es1 with
  | nil =>
    intro e es2 s s1 s2 err h1 h2
    simp only [procEntries] at h1
    rcases Prod.mk.injEq .. |>.mp h1 with ⟨rfl, _⟩
    rw [List.nil_append, procEntries, h2]
  | cons e0 es1' ih =>
    intro e es2 s s1 s2 err h1 h2
    rw [List.cons_append, procEntries]
    rw [procEntries] at h1
    rcases hq : procEntry pfx zn tz T e0 s with ⟨s0, err0⟩
    rw [hq] at h1
    cases err0 with
    | some e0' =>
      simp at h1
    | none =>
      exact ih e es2 s0 s1 s2 err h1 h2

/-- A fatal archive error stops the archive loop at exactly the failing
archive: the archives after it are never processed. -/
theorem procAll_append_abort (pfx : Bool) (T : Nat) :
    ∀ (zs1 : List SrcZip) (z : SrcZip) (zs2 : List SrcZip) (s s1 s2 : MSt)
      (err : MergeErr),
      procAll pfx T zs1 s = (s1, none) →
      procArchive pfx T z s1 = (s2, some err) →
      procAll pfx T (zs1 ++ z :: zs2) s = (s2, some err) := by
  intro zs1
  induction zs1 with
  | nil =>
    intro z zs2 s s1 s2 err h1 h2
    simp only [procAll] at h1
    rcases Prod.mk.injEq .. |>.mp h1 with ⟨rfl, _⟩
    rw [List.nil_append, procAll, h2]
  | cons z0 zs1' ih =>
    intro z zs2 s s1 s2 err h1 h2
    rw [List.cons_append, procAll]
    rw [procAll] at h1
    rcases hq : procArchive pfx T z0 s with ⟨s0, err0⟩
    rw [hq] at h1
    cases err0 with
    | some e0' =>
      simp at h1
    | none =>
      exact ih z zs2 s0 s1 s2 err h1 h2

/-- A fatal streaming error becomes the job's result, with the output
listing and render log frozen at the abort point. -/
theorem mergeZIP_err_surface (cfg : Cfg) (dir : List SrcZip) (s : MSt)
    (err : MergeErr) (hne : sortZips dir ≠ [])
    (hgate : ¬(0 < cfg.measuredFree.getD 0 ∧
      cfg.measuredFree.getD 0 < diskNeed cfg.store
        (overallTotalOf (sortZips dir)) (overallCompressedOf (sortZips dir))))
    (hp : procAll cfg.pfxByZip (overallTotalOf (sortZips dir)) (sortZips dir)
      ⟨0, [], [], []⟩ = (s, some err)) :
    mergeZIP cfg dir = ⟨some err, s.outs, true, s.renders⟩ := by
  simp only [mergeZIP]
  rw [if_neg hne, if_neg hgate, hp]

/-- C7 (amended): for every job, an error writing bytes to an output entry
or an error closing/finalizing the output archive is fatal — the job
aborts immediately with an error result, at exactly the failing entry and
archive, processing nothing further — while an error creating an output
entry header only warns and skips that entry.  Spelled out: (i) a close
error always yields an error result; (ii) the copy loop aborts only when a
write fails; (iii) a failing write raises `writeErr` and drops the failing
entry from the output listing; (iv)/(v) a fatal error stops the entry loop
and the archive loop at exactly the failing position, leaving the entries
and archives after it unprocessed; (vi) `writeErr` is the only error the
streaming loop raises; (vii) that error becomes the job result with the
state frozen at the abort point; (viii) a header error returns the state
unchanged except for the consumed dedup counter, and the job continues. -/
theorem C7_amended :
    (∀ (cfg : Cfg) (dir : List SrcZip), cfg.closeErr = true →
      (mergeZIP cfg dir).result ≠ none) ∧
    (∀ (tz T : Nat) (w : Option Nat) (chunks : List Nat) (i : Nat)
       (c : CopySt),
      (copyChunks tz T w chunks i c).2 = true → ∃ j, w = some j) ∧
    (∀ (pfx : Bool) (zn : Str) (tz T : Nat) (e : Entry) (s : ASt),
      e.isDir = false → shouldSkipPath e.name = false → e.headerErr = false →
      e.openErr = false →
      (copyChunks tz T e.writeErrAt e.chunks 0
        ⟨s.doneZip, s.overallDone, s.r, s.renders⟩).2 = true →
      (procEntry pfx zn tz T e s).2 = some MergeErr.writeErr ∧
        (procEntry pfx zn tz T e s).1.outs = s.outs) ∧
    (∀ (pfx : Bool) (zn : Str) (tz T : Nat) (es1 : List Entry) (e : Entry)
       (es2 : List Entry) (s s1 s2 : ASt) (err : MergeErr),
      procEntries pfx zn tz T es1 s = (s1, none) →
      procEntry pfx zn tz T e s1 = (s2, some err) →
      procEntries pfx zn tz T (es1 ++ e :: es2) s = (s2, some err)) ∧
    (∀ (pfx : Bool) (T : Nat) (zs1 : List SrcZip) (z : SrcZip)
       (zs2 : List SrcZip) (s s1 s2 : MSt) (err : MergeErr),
      procAll pfx T zs1 s = (s1, none) →
      procArchive pfx T z s1 = (s2, some err) →
      procAll pfx T (zs1 ++ z :: zs2) s = (s2, some err)) ∧
    (∀ (pfx : Bool) (T : Nat) (z : SrcZip) (s s' : MSt) (err : MergeErr),
      procArchive pfx T z s = (s', some err) → err = MergeErr.writeErr) ∧
    (∀ (cfg : Cfg) (dir : List SrcZip) (s : MSt) (err : MergeErr),
      sortZips dir ≠ [] →
      ¬(0 < cfg.measuredFree.getD 0 ∧
        cfg.measuredFree.getD 0 < diskNeed cfg.store
          (overallTotalOf (sortZips dir)) (overallCompressedOf (sortZips dir))) →
      procAll cfg.pfxByZip (overallTotalOf (sortZips dir)) (sortZips dir)
        ⟨0, [], [], []⟩ = (s, some err) →
      mergeZIP cfg dir = ⟨some err, s.outs, true, s.renders⟩) ∧
    (∀ (pfx : Bool) (zn : Str) (tz T : Nat) (e : Entry) (s : ASt),
      e.isDir = false → shouldSkipPath e.name = false → e.headerErr = true →
      procEntry pfx zn tz T e s =
        (⟨s.overallDone, (mapTargetName pfx zn e.name s.dedup).2, s.renders,
          s.outs, s.doneZip, s.r⟩, none)) :=
  ⟨mergeZIP_closeErr_fatal,
   fun _ _ _ chunks i c h => copyChunks_abort_write chunks i c h,
   procEntry_writeAbort,
   fun pfx zn tz T es1 e es2 s s1 s2 err h1 h2 =>
     procEntries_append_abort pfx zn tz T es1 e es2 s s1 s2 err h1 h2,
   fun pfx T zs1 z zs2 s s1 s2 err h1 h2 =>
     procAll_append_abort pfx T zs1 z zs2 s s1 s2 err h1 h2,
   procArchive_err_write,
   mergeZIP_err_surface,
   procEntry_headerSkip⟩

/-- Witness: the amended C7's write-abort surfacing clause at a concrete
two-archive job — the first archive's entry fails its first write, the job
result is `writeErr`, and the second archive contributes nothing. -/
theorem C7_amended_witness :
    mergeZIP ⟨true, false, none, false⟩
      [⟨['a', '.', 'z', 'i', 'p'],
        some [⟨['f'], false, 2, 1, [1, 1], false, false, false, some 0⟩]⟩,
       ⟨['b', '.', 'z', 'i', 'p'],
        some [⟨['g'], false, 1, 1, [1], false, false, false, none⟩]⟩] =
      ⟨some MergeErr.writeErr, [], true, []⟩ :=
  C7_amended.2.2.2.2.2.2.1 ⟨true, false, none, false⟩
    [⟨['a', '.', 'z', 'i', 'p'],
      some [⟨['f'], false, 2, 1, [1, 1], false, false, false, some 0⟩]⟩,
     ⟨['b', '.', 'z', 'i', 'p'],
      some [⟨['g'], false, 1, 1, [1], false, false, false, none⟩]⟩]
    ⟨0, [(['f'], 1)], [], []⟩ MergeErr.writeErr (by decide) (by decide)
    (by decide)

/-! The raw splitter. -/

theorem splitChunksAux_nil (f p : Nat) : splitChunksAux f p [] = [] := by
  cases f <;> rfl

theorem splitChunksAux_flatten :
    ∀ (f p : Nat) (d : List Nat), d.length ≤ f → 0 < p →
      (splitChunksAux f p d).flatten = d := by
  intro f
  induction f with
  | zero =>
    intro p d hf _
    have hd : d = [] := List.eq_nil_of_length_eq_zero (Nat.le_zero.mp hf)
    subst hd
    rfl
  | succ f ih =>
    intro p d hf hp
    cases d with
    | nil => rfl
    | cons x xs =>
      show ((x :: xs).take p :: splitChunksAux f p ((x :: xs).drop p)).flatten =
        x :: xs
      rw [List.flatten_cons, ih p ((x :: xs).drop p) (by
        rw [List.length_drop]
        simp only [List.length_cons] at hf ⊢
        omega) hp]
      exact List.take_append_drop p (x :: xs)

theorem splitChunksAux_le :
    ∀ (f p : Nat) (d : List Nat), ∀ l ∈ splitChunksAux f p d, l.length ≤ p := by
  intro f
  induction f with
  | zero =>
    intro p d l hl
    simp [splitChunksAux] at hl
  | succ f ih =>
    intro p d l hl
    cases d with
    | nil =>
      simp [splitChunksAux] at hl
    | cons x xs =>
      rcases List.mem_cons.mp hl with rfl | h2
      · exact List.length_take_le p _
      · exact ih p _ l h2

theorem splitChunksAux_dropLast :
    ∀ (f p : Nat) (d : List Nat), 0 < p → d.length ≤ f →
      ∀ l ∈ (splitChunksAux f p d).dropLast, l.length = p := by
  intro f
  induction f with
  | zero =>
    intro p d _ hf l hl
    have hd : d = [] := List.eq_nil_of_length_eq_zero (Nat.le_zero.mp hf)
    subst hd
    simp [splitChunksAux] at hl
  | succ f ih =>
    intro p d hp hf l hl
    cases d with
    | nil =>
      simp [splitChunksAux] at hl
    | cons x xs =>
      replace hl : l ∈ ((x :: xs).take p ::
        splitChunksAux f p ((x :: xs).drop p)).dropLast := hl
      rcases hrest : splitChunksAux f p ((x :: xs).drop p) with _ | ⟨r, rs⟩
      · rw [hrest] at hl
        simp at hl
      · rw [hrest, List.dropLast_cons₂] at hl
        have hlen : p ≤ (x :: xs).length := by
          by_contra hcon
          have hdrop : (x :: xs).drop p = [] := by
            rw [List.drop_eq_nil_iff]
            omega
          rw [hdrop, splitChunksAux_nil] at hrest
          exact List.cons_ne_nil r rs hrest.symm
        rcases List.mem_cons.mp hl with rfl | h2
        · rw [List.length_take]
          omega
        · rw [← hrest] at h2
          exact ih p _ hp (by
            rw [List.length_drop]
            simp only [List.length_cons] at hf ⊢
            omega) l h2

theorem splitChunksAux_count :
    ∀ (f p : Nat) (d : List Nat), 0 < p → d ≠ [] → d.length ≤ f →
      (splitChunksAux f p d).length = (d.length + p - 1) / p := by
  intro f
  induction f with
  | zero =>
    intro p d _ hne hf
    exact absurd (List.eq_nil_of_length_eq_zero (Nat.le_zero.mp hf)) hne
  | succ f ih =>
    intro p d hp hne hf
    cases d with
    | nil => exact absurd rfl hne
    | cons x xs =>
      show ((x :: xs).take p :: splitChunksAux f p ((x :: xs).drop p)).length =
        ((x :: xs).length + p - 1) / p
      rw [List.length_cons]
      by_cases hle : (x :: xs).length ≤ p
      · rw [List.drop_eq_nil_iff.mpr hle, splitChunksAux_nil]
        rw [List.length_nil]
        have h1 : ((x :: xs).length + p - 1) / p = 1 := by
          apply Nat.div_eq_of_lt_le
          · simp only [List.length_cons] at hle ⊢
            omega
          · simp only [List.length_cons] at hle ⊢
            omega
        omega
      · have hrec := ih p ((x :: xs).drop p) hp (by
          intro hcon
          rw [List.drop_eq_nil_iff] at hcon
          omega) (by
          rw [List.length_drop]
          simp only [List.length_cons] at hf ⊢
          omega)
        rw [hrec, List.length_drop]
        have hsub : (x :: xs).length + p - 1 = ((x :: xs).length - p + p - 1) + p := by
          simp only [List.length_cons] at hle ⊢
          omega
        rw [hsub, Nat.add_div_right _ hp]

theorem splitChunksAux_cons_eq (f p : Nat) (d : List Nat) (hne : d ≠ []) :
    splitChunksAux (f + 1) p d = d.take p :: splitChunksAux f p (d.drop p) := by
  cases d with
  | nil => exact absurd rfl hne
  | cons x xs => rfl

theorem parts_map_fst (L : List (List Nat)) (path : Str) :
    (L.enum.map (fun q => (partName path q.1, q.2))).map Prod.fst =
      (List.range L.length).map (partName path) := by
  rw [List.map_map, List.range_eq_range', ← List.enumFrom_map_fst 0 L,
    List.map_map]
  rfl

theorem parts_map_snd (L : List (List Nat)) (path : Str) :
    (L.enum.map (fun q => (partName path q.1, q.2))).map Prod.snd = L := by
  rw [List.map_map]
  exact List.enumFrom_map_snd 0 L

/-- C8: for every non-empty input and positive part size, `rawSplit`
produces parts named `<path>.part-NNN` (NNN zero-padded to at least three
digits, sequential from 000), each part at most the nominal size with every
part but the last exactly that size, `⌈size/partSize⌉` parts in all, whose
in-order concatenation is byte-identical to the input; in particular a
10 MiB file split at 4 MiB yields exactly the parts 4 MiB, 4 MiB, 2 MiB. -/
theorem C8_rawSplit :
    (∀ (path : Str) (p : Nat) (rm : Bool) (data : List Nat), 0 < p → data ≠ [] →
      ∃ parts : List (Str × List Nat),
        rawSplit path p rm data = some ⟨parts, rm⟩ ∧
        parts.map Prod.fst = (List.range parts.length).map (partName path) ∧
        (parts.map Prod.snd).flatten = data ∧
        (∀ q ∈ parts, q.2.length ≤ p) ∧
        (∀ q ∈ parts.dropLast, q.2.length = p) ∧
        parts.length = (data.length + p - 1) / p) ∧
    rawSplit ['m'] 4194304 false (List.replicate 10485760 0) =
      some ⟨[(partName ['m'] 0, List.replicate 4194304 0),
             (partName ['m'] 1, List.replicate 4194304 0),
             (partName ['m'] 2, List.replicate 2097152 0)], false⟩ := by
  constructor
  · intro path p rm data hp hne
    refine ⟨(splitChunksAux data.length p data).enum.map
      (fun q => (partName path q.1, q.2)), ?_, ?_, ?_, ?_, ?_, ?_⟩
    · unfold rawSplit
      rw [if_neg (by omega), if_neg (by simpa using hne)]
    · rw [parts_map_fst, List.length_map]
      simp [List.enum_eq_enumFrom, List.enumFrom_length]
    · rw [parts_map_snd]
      exact splitChunksAux_flatten data.length p data le_rfl hp
    · intro q hq
      rcases List.mem_map.mp hq with ⟨q', hq', rfl⟩
      have hm : q'.2 ∈ (splitChunksAux data.length p data).enum.map Prod.snd :=
        List.mem_map.mpr ⟨q', hq', rfl⟩
      rw [List.enum_eq_enumFrom, List.enumFrom_map_snd] at hm
      exact splitChunksAux_le data.length p data q'.2 hm
    · intro q hq
      rw [← List.map_dropLast] at hq
      rcases List.mem_map.mp hq with ⟨q', hq', rfl⟩
      have hm : q'.2 ∈ (splitChunksAux data.length p data).enum.dropLast.map
          Prod.snd := List.mem_map.mpr ⟨q', hq', rfl⟩
      rw [List.map_dropLast, List.enum_eq_enumFrom, List.enumFrom_map_snd] at hm
      exact splitChunksAux_dropLast data.length p data hp le_rfl q'.2 hm
    · rw [List.length_map, List.enum_eq_enumFrom, List.enumFrom_length]
      exact splitChunksAux_count data.length p data hp hne le_rfl
  · have hch : splitChunksAux 10485760 4194304 (List.replicate 10485760 (0 : Nat)) =
        [List.replicate 4194304 0, List.replicate 4194304 0,
         List.replicate 2097152 0] := by
      rw [show (10485760 : Nat) = 10485759 + 1 from rfl,
        splitChunksAux_cons_eq _ _ _ (by norm_num [List.replicate_eq_nil_iff]),
        List.take_replicate, List.drop_replicate]
      norm_num
      rw [show (10485759 : Nat) = 10485758 + 1 from rfl,
        splitChunksAux_cons_eq _ _ _ (by norm_num [List.replicate_eq_nil_iff]),
        List.take_replicate, List.drop_replicate]
      norm_num
      rw [show (10485758 : Nat) = 10485757 + 1 from rfl,
        splitChunksAux_cons_eq _ _ _ (by norm_num [List.replicate_eq_nil_iff]),
        List.take_replicate, List.drop_replicate]
      norm_num
      exact splitChunksAux_nil _ _
    unfold rawSplit
    rw [if_neg (by norm_num), List.length_replicate,
      if_neg (by norm_num), hch]
    rfl

/-- Witness: C8's general clause at a ten-byte input split into parts of
four. -/
theorem C8_rawSplit_witness :
    ∃ parts : List (Str × List Nat),
      rawSplit ['f'] 4 true [1, 2, 3, 4, 5, 6, 7, 8, 9, 10] =
        some ⟨parts, true⟩ ∧
      parts.map Prod.fst = (List.range parts.length).map (partName ['f']) ∧
      (parts.map Prod.snd).flatten = [1, 2, 3, 4, 5, 6, 7, 8, 9, 10] ∧
      (∀ q ∈ parts, q.2.length ≤ 4) ∧
      (∀ q ∈ parts.dropLast, q.2.length = 4) ∧
      parts.length = (([1, 2, 3, 4, 5, 6, 7, 8, 9, 10] : List Nat).length + 4 - 1) / 4 :=
  C8_rawSplit.1 ['f'] 4 true [1, 2, 3, 4, 5, 6, 7, 8, 9, 10] (by decide) (by decide)

/-- C10: a zero-byte finished file makes `rawSplit` return success without
creating any part file and without removing the original, even with the
remove-original flag set and a valid part size. -/
theorem C10_rawSplit_empty (path : Str) (p : Nat) (rm : Bool) (hp : 0 < p) :
    rawSplit path p rm [] = some ⟨[], false⟩ := by
  unfold rawSplit
  rw [if_neg (by omega)]
  rfl

/-- Witness: C10 with the remove-original flag set. -/
theorem C10_rawSplit_empty_witness :
    rawSplit ['f'] 4 true [] = some ⟨[], false⟩ :=
  C10_rawSplit_empty ['f'] 4 true (by decide)

/-! Progress telemetry: monotonicity. -/

theorem pctOf_mono {od od' T : Nat} (h : od ≤ od') :
    pctOf od T ≤ pctOf od' T := by
  unfold pctOf
  by_cases ht : 0 < T
  · rw [if_pos ht, if_pos ht]
    exact Nat.div_le_div_right (Nat.mul_le_mul_right 100 h)
  · rw [if_neg ht, if_neg ht]

theorem pctOf_self (T : Nat) : pctOf T T = 100 := by
  unfold pctOf
  by_cases ht : 0 < T
  · rw [if_pos ht, Nat.mul_comm, Nat.mul_div_cancel _ ht]
  · rw [if_neg ht]

theorem print_rendersOk {T : Nat} {rend : List (Nat × Nat)} {od od' : Nat}
    (hok : rendersOk T rend od) (hle : od ≤ od') (dz tz : Nat) (r : RState) :
    rendersOk T (printZipProgress dz tz od' T r rend).2 od' := by
  rcases hok with ⟨hchain, hlast⟩
  unfold printZipProgress
  by_cases hc : ((pctOf dz tz : Int) ≠ r.lz ∨ (pctOf od' T : Int) ≠ r.la)
  · rw [if_pos hc]
    constructor
    · rw [List.chain'_append]
      refine ⟨hchain, List.chain'_singleton _, ?_⟩
      intro x hx y hy
      simp only [List.head?_cons, Option.mem_def, Option.some.injEq] at hy
      subst hy
      exact le_trans (hlast x hx) (pctOf_mono hle)
    · intro x hx
      rw [List.getLast?_concat] at hx
      simp only [Option.mem_def, Option.some.injEq] at hx
      subst hx
      exact le_rfl
  · rw [if_neg hc]
    exact ⟨hchain, fun x hx => le_trans (hlast x hx) (pctOf_mono hle)⟩

theorem copyChunks_rendersOk {tz T : Nat} {w : Option Nat} :
    ∀ (chunks : List Nat) (i : Nat) (c : CopySt),
      rendersOk T c.rend c.od →
      rendersOk T (copyChunks tz T w chunks i c).1.rend
          (copyChunks tz T w chunks i c).1.od ∧
        c.od ≤ (copyChunks tz T w chunks i c).1.od := by
  intro chunks
  induction chunks with
  | nil =>
    intro i c hok
    exact ⟨hok, le_rfl⟩
  | cons n rest ih =>
    intro i c hok
    rw [copyChunks]
    by_cases hn : 0 < n
    · rw [if_pos hn]
      by_cases hw : w = some i
      · rw [if_pos hw]
        exact ⟨hok, le_rfl⟩
      · rw [if_neg hw]
        have hstep := print_rendersOk hok (Nat.le_add_right c.od n)
          (c.doneZip + n) tz c.r
        have hrec := ih (i + 1)
          ⟨c.doneZip + n, c.od + n,
            (printZipProgress (c.doneZip + n) tz (c.od + n) T c.r c.rend).1,
            (printZipProgress (c.doneZip + n) tz (c.od + n) T c.r c.rend).2⟩
          hstep
        exact ⟨hrec.1, le_trans (Nat.le_add_right c.od n) hrec.2⟩
    · rw [if_neg hn]
      exact ih (i + 1) c hok

theorem procEntry_rendersOk {T : Nat} (pfx : Bool) (zn : Str) (tz : Nat)
    (e : Entry) (s : ASt) (hok : rendersOk T s.renders s.overallDone) :
    rendersOk T (procEntry pfx zn tz T e s).1.renders
        (procEntry pfx zn tz T e s).1.overallDone ∧
      s.overallDone ≤ (procEntry pfx zn tz T e s).1.overallDone := by
  unfold procEntry
  by_cases hd : e.isDir
  · rw [if_pos hd]
    exact ⟨hok, le_rfl⟩
  · rw [if_neg hd]
    by_cases hs : shouldSkipPath e.name = true
    · rw [if_pos hs]
      exact ⟨hok, le_rfl⟩
    · rw [if_neg hs]
      by_cases hh : e.headerErr
      · rw [if_pos hh]
        exact ⟨hok, le_rfl⟩
      · rw [if_neg hh]
        by_cases ho : e.openErr
        · rw [if_pos ho]
          exact ⟨hok, le_rfl⟩
        · rw [if_neg ho]
          have hcc := @copyChunks_rendersOk tz T e.writeErrAt e.chunks 0
            ⟨s.doneZip, s.overallDone, s.r, s.renders⟩ hok
          by_cases hab : (copyChunks tz T e.writeErrAt e.chunks 0
              ⟨s.doneZip, s.overallDone, s.r, s.renders⟩).2
          · rw [if_pos hab]
            exact hcc
          · rw [if_neg hab]
            exact hcc

theorem procEntries_rendersOk {T : Nat} (pfx : Bool) (zn : Str) (tz : Nat) :
    ∀ (es : List Entry) (s : ASt),
      rendersOk T s.renders s.overallDone →
      rendersOk T (procEntries pfx zn tz T es s).1.renders
          (procEntries pfx zn tz T es s).1.overallDone ∧
        s.overallDone ≤ (procEntries pfx zn tz T es s).1.overallDone := by
  intro es
  induction es with
  | nil =>
    intro s hok
    exact ⟨hok, le_rfl⟩
  | cons e es ih =>
    intro s hok
    rw [procEntries]
    have he := procEntry_rendersOk pfx zn tz e s hok
    rcases hp : procEntry pfx zn tz T e s with ⟨s', err⟩
    rw [hp] at he
    cases err with
    | some err =>
      exact he
    | none =>
      have hrec := ih s' he.1
      exact ⟨hrec.1, le_trans he.2 hrec.2⟩

theorem procArchive_rendersOk {T : Nat} (pfx : Bool) (z : SrcZip) (s : MSt)
    (hok : rendersOk T s.renders s.overallDone) :
    rendersOk T (procArchive pfx T z s).1.renders
        (procArchive pfx T z s).1.overallDone ∧
      s.overallDone ≤ (procArchive pfx T z s).1.overallDone := by
  simp only [procArchive]
  split
  · exact ⟨hok, le_rfl⟩
  · rename_i es hz
    have hes := procEntries_rendersOk pfx z.name (sumUncompressed es) es
      ⟨s.overallDone, s.dedup, s.renders, s.outs, 0, ⟨-1, -1⟩⟩ hok
    split
    · rename_i s' err hp
      rw [hp] at hes
      exact hes
    · rename_i s' hp
      rw [hp] at hes
      exact ⟨print_rendersOk hes.1 le_rfl (sumUncompressed es)
        (sumUncompressed es) s'.r, hes.2⟩

theorem procAll_rendersOk {T : Nat} (pfx : Bool) :
    ∀ (zips : List SrcZip) (s : MSt),
      rendersOk T s.renders s.overallDone →
      rendersOk T (procAll pfx T zips s).1.renders
        (procAll pfx T zips s).1.overallDone := by
  intro zips
  induction zips with
  | nil =>
    intro s hok
    exact hok
  | cons z zs ih =>
    intro s hok
    rw [procAll]
    have hz := procArchive_rendersOk pfx z s hok
    split
    · rename_i s' err hp
      rw [hp] at hz
      exact hz.1
    · rename_i s' hp
      rw [hp] at hz
      exact ih s' hz.1

/-- C9 part (a): the rendered overall percentages of any job are
non-decreasing (proved below as part of the amended claim). -/
theorem mergeZIP_chain (cfg : Cfg) (dir : List SrcZip) :
    List.Chain' (· ≤ ·) ((mergeZIP cfg dir).renders.map Prod.snd) := by
  have hbase : rendersOk (overallTotalOf (sortZips dir)) [] 0 := by
    exact ⟨List.chain'_nil, by simp⟩
  simp only [mergeZIP]
  split
  · simp
  · split
    · simp
    · have hall := procAll_rendersOk cfg.pfxByZip (sortZips dir)
        ⟨0, [], [], []⟩ hbase
      split
      · rename_i s err hp
        rw [hp] at hall
        rw [List.chain'_map]
        exact hall.1
      · rename_i s hp
        rw [hp] at hall
        split
        · rw [List.chain'_map]
          exact hall.1
        · rw [List.chain'_map]
          exact hall.1

/-! Progress telemetry: completion. -/

theorem lastSync_neg (rend : List (Nat × Nat)) : lastSync rend ⟨-1, -1⟩ := by
  intro n hn
  have hcast : (-1 : Int) = (n : Int) := hn
  omega

theorem print_lastSync {rend : List (Nat × Nat)} {r : RState}
    (hls : lastSync rend r) (dz tz od T : Nat) :
    lastSync (printZipProgress dz tz od T r rend).2
      (printZipProgress dz tz od T r rend).1 := by
  unfold printZipProgress
  by_cases hc : ((pctOf dz tz : Int) ≠ r.lz ∨ (pctOf od T : Int) ≠ r.la)
  · rw [if_pos hc]
    intro n hn
    have hap : pctOf od T = n := by
      have : ((pctOf od T : Nat) : Int) = (n : Int) := hn
      omega
    subst hap
    exact ⟨pctOf dz tz, by rw [List.getLast?_concat]⟩
  · rw [if_neg hc]
    exact hls

theorem copyChunks_lastSync {tz T : Nat} {w : Option Nat} :
    ∀ (chunks : List Nat) (i : Nat) (c : CopySt),
      lastSync c.rend c.r →
      lastSync (copyChunks tz T w chunks i c).1.rend
        (copyChunks tz T w chunks i c).1.r := by
  intro chunks
  induction chunks with
  | nil =>
    intro i c hls
    exact hls
  | cons n rest ih =>
    intro i c hls
    rw [copyChunks]
    by_cases hn : 0 < n
    · rw [if_pos hn]
      by_cases hw : w = some i
      · rw [if_pos hw]
        exact hls
      · rw [if_neg hw]
        exact ih (i + 1) _ (print_lastSync hls (c.doneZip + n) tz (c.od + n) T)
    · rw [if_neg hn]
      exact ih (i + 1) c hls

theorem copyChunks_none (tz T : Nat) :
    ∀ (chunks : List Nat) (i : Nat) (c : CopySt),
      (copyChunks tz T none chunks i c).2 = false ∧
      (copyChunks tz T none chunks i c).1.od = c.od + chunks.sum := by
  intro chunks
  induction chunks with
  | nil =>
    intro i c
    exact ⟨rfl, by simp [copyChunks]⟩
  | cons n rest ih =>
    intro i c
    rw [copyChunks]
    by_cases hn : 0 < n
    · rw [if_pos hn, if_neg (by simp)]
      have hrec := ih (i + 1) ⟨c.doneZip + n, c.od + n,
        (printZipProgress (c.doneZip + n) tz (c.od + n) T c.r c.rend).1,
        (printZipProgress (c.doneZip + n) tz (c.od + n) T c.r c.rend).2⟩
      refine ⟨hrec.1, ?_⟩
      rw [hrec.2]
      simp only [List.sum_cons]
      omega
    · rw [if_neg hn]
      have hrec := ih (i + 1) c
      refine ⟨hrec.1, ?_⟩
      rw [hrec.2]
      simp only [List.sum_cons]
      omega

theorem procEntry_good {T : Nat} (pfx : Bool) (zn : Str) (tz : Nat)
    (e : Entry) (s : ASt) (hg : goodEntry e) :
    (procEntry pfx zn tz T e s).2 = none ∧
    (procEntry pfx zn tz T e s).1.overallDone =
      s.overallDone + (if e.isDir = true then 0 else e.usize) ∧
    (lastSync s.renders s.r →
      lastSync (procEntry pfx zn tz T e s).1.renders
        (procEntry pfx zn tz T e s).1.r) := by
  unfold procEntry
  by_cases hdir : e.isDir = true
  · rw [if_pos hdir, if_pos hdir]
    exact ⟨rfl, by simp, fun h => h⟩
  · rcases hg with hd | ⟨hskip, hh, ho, hw, hsum⟩
    · exact absurd hd hdir
    · rw [if_neg hdir, if_neg hdir, if_neg (by simp [hskip]),
        if_neg (by simp [hh]), if_neg (by simp [ho]), hw]
      have hcn := copyChunks_none tz T e.chunks 0
        ⟨s.doneZip, s.overallDone, s.r, s.renders⟩
      rw [if_neg (by simp [hcn.1])]
      refine ⟨rfl, ?_, fun h => ?_⟩
      · rw [hcn.2]
        simp [hsum]
      · exact copyChunks_lastSync e.chunks 0
          ⟨s.doneZip, s.overallDone, s.r, s.renders⟩ h

theorem procEntries_good {T : Nat} (pfx : Bool) (zn : Str) (tz : Nat) :
    ∀ (es : List Entry) (s : ASt), (∀ e ∈ es, goodEntry e) →
      (procEntries pfx zn tz T es s).2 = none ∧
      (procEntries pfx zn tz T es s).1.overallDone =
        s.overallDone + sumUncompressed es ∧
      (lastSync s.renders s.r →
        lastSync (procEntries pfx zn tz T es s).1.renders
          (procEntries pfx zn tz T es s).1.r) := by
  intro es
  induction es with
  | nil =>
    intro s _
    exact ⟨rfl, by simp [procEntries, sumUncompressed], fun h => h⟩
  | cons e es ih =>
    intro s hg
    rw [procEntries]
    have he := @procEntry_good T pfx zn tz e s (hg e (List.mem_cons_self _ _))
    split
    · rename_i s' err hp
      rw [hp] at he
      exact absurd he.1 (by simp)
    · rename_i s' hp
      rw [hp] at he
      have hrec := ih s' (fun x hx => hg x (List.mem_cons_of_mem _ hx))
      refine ⟨hrec.1, ?_, fun h => hrec.2.2 (he.2.2 h)⟩
      rw [hrec.2.1, he.2.1, sumUncompressed]
      by_cases hd : e.isDir = true
      · simp [hd]
      · simp [hd]
        omega

theorem procArchive_good {T : Nat} (pfx : Bool) (z : SrcZip) (s : MSt)
    (hz : goodZip z) :
    (procArchive pfx T z s).2 = none ∧
    (procArchive pfx T z s).1.overallDone = s.overallDone + zipTotal z ∧
    ∃ zp, (procArchive pfx T z s).1.renders.getLast? =
      some (zp, pctOf (procArchive pfx T z s).1.overallDone T) := by
  rcases hz with ⟨es, hes, hge⟩
  simp only [procArchive]
  split
  · rename_i hnone
    rw [hes] at hnone
    exact absurd hnone (by simp)
  · rename_i es' hsome
    rw [hes] at hsome
    rcases Option.some.inj hsome with rfl
    have hent := @procEntries_good T pfx z.name (sumUncompressed es) es
      ⟨s.overallDone, s.dedup, s.renders, s.outs, 0, ⟨-1, -1⟩⟩ hge
    split
    · rename_i s' err hp
      rw [hp] at hent
      exact absurd hent.1 (by simp)
    · rename_i s' hp
      rw [hp] at hent
      have hls : lastSync s'.renders s'.r := hent.2.2 (lastSync_neg _)
      have hod : s'.overallDone = s.overallDone + zipTotal z := by
        rw [hent.2.1]
        simp [zipTotal, hes]
      refine ⟨rfl, hod, ?_⟩
      unfold printZipProgress
      by_cases hc : ((pctOf (sumUncompressed es) (sumUncompressed es) : Int) ≠
          s'.r.lz ∨ (pctOf s'.overallDone T : Int) ≠ s'.r.la)
      · rw [if_pos hc]
        exact ⟨pctOf (sumUncompressed es) (sumUncompressed es),
          by rw [List.getLast?_concat]⟩
      · rw [if_neg hc]
        push_neg at hc
        exact hls (pctOf s'.overallDone T) hc.2.symm

theorem procAll_good {T : Nat} (pfx : Bool) :
    ∀ (zips : List SrcZip) (s : MSt), zips ≠ [] →
      (∀ z ∈ zips, goodZip z) →
      (procAll pfx T zips s).2 = none ∧
      (procAll pfx T zips s).1.overallDone =
        s.overallDone + overallTotalOf zips ∧
      ∃ zp, (procAll pfx T zips s).1.renders.getLast? =
        some (zp, pctOf (procAll pfx T zips s).1.overallDone T) := by
  intro zips
  induction zips with
  | nil =>
    intro s hne _
    exact absurd rfl hne
  | cons z zs ih =>
    intro s _ hg
    rw [procAll]
    have ha := @procArchive_good T pfx z s (hg z (List.mem_cons_self _ _))
    split
    · rename_i s' err hp
      rw [hp] at ha
      exact absurd ha.1 (by simp)
    · rename_i s' hp
      rw [hp] at ha
      cases zs with
      | nil =>
        refine ⟨rfl, ?_, ha.2.2⟩
        rw [show procAll pfx T [] s' = (s', none) from rfl]
        rw [ha.2.1]
        simp [overallTotalOf]
      | cons z2 zs2 =>
        have hrec := ih s' (by simp)
          (fun x hx => hg x (List.mem_cons_of_mem _ hx))
        refine ⟨hrec.1, ?_, hrec.2.2⟩
        rw [hrec.2.1, ha.2.1]
        simp only [overallTotalOf, List.map_cons, List.sum_cons]
        omega

/-- C9 as stated is false: entries excluded by the skip rules count toward
the overall total but are never copied, so a job with a 100-byte `.DS_Store`
entry beside a 100-byte real entry renders 50% as its final overall
percentage, not 100%. -/
theorem C9_counterexample :
    ((mergeZIP ⟨true, false, none, false⟩
      [⟨['a', '.', 'z', 'i', 'p'], some
        [⟨['a', '.', 't', 'x', 't'], false, 100, 1, [100], false, false, false, none⟩,
         ⟨['b', '.', 'D', 'S', '_', 'S', 't', 'o', 'r', 'e'], false, 100, 1, [],
          false, false, false, none⟩]⟩]).renders.map Prod.snd).getLast? =
      some 50 ∧
    ((mergeZIP ⟨true, false, none, false⟩
      [⟨['a', '.', 'z', 'i', 'p'], some
        [⟨['a', '.', 't', 'x', 't'], false, 100, 1, [100], false, false, false, none⟩,
         ⟨['b', '.', 'D', 'S', '_', 'S', 't', 'o', 'r', 'e'], false, 100, 1, [],
          false, false, false, none⟩]⟩]).renders.map Prod.snd).getLast? ≠
      some 100 := by
  decide

/-- C9 (amended): for every job the sequence of rendered overall-percentage
values is non-decreasing; and it ends at 100 provided the job passes the
pre-flight gate, lists at least one archive, and every archive opens with
every entry copied in full (no skip-rule entries, no injected failures) —
with skip-rule entries present the final value can stay below 100. -/
theorem C9_amended :
    (∀ (cfg : Cfg) (dir : List SrcZip),
      List.Chain' (· ≤ ·) ((mergeZIP cfg dir).renders.map Prod.snd)) ∧
    (∀ (cfg : Cfg) (dir : List SrcZip),
      sortZips dir ≠ [] →
      (∀ z ∈ sortZips dir, goodZip z) →
      ¬(0 < cfg.measuredFree.getD 0 ∧
        cfg.measuredFree.getD 0 < diskNeed cfg.store
          (overallTotalOf (sortZips dir)) (overallCompressedOf (sortZips dir))) →
      ((mergeZIP cfg dir).renders.map Prod.snd).getLast? = some 100) := by
  refine ⟨mergeZIP_chain, ?_⟩
  intro cfg dir hne hgood hgate
  simp only [mergeZIP]
  rw [if_neg hne, if_neg hgate]
  have hall := @procAll_good (overallTotalOf (sortZips dir)) cfg.pfxByZip
    (sortZips dir) ⟨0, [], [], []⟩ hne hgood
  split
  · rename_i s err hp
    rw [hp] at hall
    exact absurd hall.1 (by simp)
  · rename_i s hp
    rw [hp] at hall
    rcases hall with ⟨_, hod, zp, hlast⟩
    simp only [] at hod
    split
    · rw [List.getLast?_map, hlast]
      simp at hod
      simp [hod, pctOf_self]
    · rw [List.getLast?_map, hlast]
      simp at hod
      simp [hod, pctOf_self]

/-- Witness: the amended C9 at a concrete two-chunk job whose renders end
at 100. -/
theorem C9_amended_witness :
    ((mergeZIP ⟨true, false, none, false⟩
      [⟨['a', '.', 'z', 'i', 'p'], some
        [⟨['a', '.', 't', 'x', 't'], false, 2, 1, [1, 1],
          false, false, false, none⟩]⟩]).renders.map Prod.snd).getLast? =
      some 100 :=
  C9_amended.2 ⟨true, false, none, false⟩ _ (by decide)
    (by
      intro z hz
      rw [show sortZips [⟨['a', '.', 'z', 'i', 'p'], some
        [⟨['a', '.', 't', 'x', 't'], false, 2, 1, [1, 1],
          false, false, false, none⟩]⟩] = [⟨['a', '.', 'z', 'i', 'p'], some
        [⟨['a', '.', 't', 'x', 't'], false, 2, 1, [1, 1],
          false, false, false, none⟩]⟩] from rfl] at hz
      rcases List.mem_singleton.mp hz with rfl
      exact ⟨_, rfl, by decide⟩)
    (by decide)
